import Mathlib

/-!
Verification development for the attatool build orchestrator.

Strings are modelled as lists of characters (`Str`); the Go string
primitives used by the code (`strings.Replace`, `strings.Index`,
`strings.SplitN`) are re-implemented below on that representation.
Go maps are modelled as association lists where an update prepends the
new binding and a lookup returns the most recent one, which realises
Go's last-write-wins map semantics.
-/

abbrev Str : Type := List Char

def str (s : String) : Str := s.data

/-- Fuel-based worker for `replaceAll` (the fuel only serves to make
the recursion structural; `replaceAll` instantiates it with the length
of the subject string, which always suffices because every step
consumes at least one character). -/
def replaceAllF (pat rep : Str) : Nat → Str → Str
  | _, [] => []
  | 0, s => s
  | fuel + 1, c :: rest =>
    if pat ≠ [] ∧ pat.isPrefixOf (c :: rest) then
      rep ++ replaceAllF pat rep fuel (rest.drop (pat.length - 1))
    else
      c :: replaceAllF pat rep fuel rest

/-- Model of `strings.Replace(s, pat, rep, -1)`: replace every
non-overlapping occurrence of `pat` in `s` by `rep`, scanning left to
right.  (The Go code only ever calls it with a non-empty pattern of the
form `"{name}"`.) -/
def replaceAll (pat rep s : Str) : Str := replaceAllF pat rep s.length s

theorem replaceAllF_adequate (pat rep : Str) :
    ∀ (f : Nat) (s : Str), s.length ≤ f → replaceAllF pat rep f s = replaceAll pat rep s := by
  intro f
  induction f using Nat.strong_induction_on with
  | _ f ih =>
    intro s hs
    match f, s with
    | fl, [] => cases fl <;> rfl
    | 0, c :: rest => simp at hs
    | g + 1, c :: rest =>
      unfold replaceAll
      simp only [List.length_cons, replaceAllF]
      have hrest : rest.length ≤ g := by
        simp only [List.length_cons] at hs
        omega
      by_cases hcond : pat ≠ [] ∧ pat.isPrefixOf (c :: rest) = true
      · rw [if_pos hcond, if_pos hcond]
        congr 1
        rw [ih g (by omega) _ (by simp only [List.length_drop]; omega)]
        rw [ih rest.length (by omega) _ (by simp only [List.length_drop]; omega)]
      · rw [if_neg hcond, if_neg hcond]
        congr 1
        rw [ih g (by omega) _ hrest]
        rw [ih rest.length (by omega) _ le_rfl]

/-- Model of `strings.Index(s, pat)` combined with the split it is used
for: returns the text before the first occurrence of `pat` and the text
after it, or `none` when `pat` does not occur. -/
def splitFirst (pat : Str) : Str → Option (Str × Str)
  | [] => if pat = [] then some ([], []) else none
  | c :: rest =>
    if pat.isPrefixOf (c :: rest) then
      some ([], (c :: rest).drop pat.length)
    else
      match splitFirst pat rest with
      | some (pre, suf) => some (c :: pre, suf)
      | none => none

/-- Model of `strings.SplitN(s, ":", 2)`. -/
def splitN2 (s : Str) : List Str :=
  match splitFirst [':'] s with
  | some (pre, suf) => [pre, suf]
  | none => [s]

/-! ## Data model: package definitions and the package index

From the repository sources: `packageDefinition` carries a unique
`PackageName`, an ordered `required` list and an ordered `dependent`
list.  In Go these lists hold pointers into the index; here they hold
the package names and `getRequired`/`getDependent` resolve a name
through the index, which is equivalent because names are unique keys. -/

structure packageDefinition where
  PackageName : Str
  required : List Str
  dependent : List Str
deriving DecidableEq, Repr

structure packageIndex where
  orderedPackages : List packageDefinition
deriving DecidableEq, Repr

/-- Modelled from the spec: `getPackageByName` and the index structure
live in a source file (the package-index reader) that is not among the
sources at hand — spec §3 describes the index as "an insertion-ordered
sequence of PackageDefinitions plus a name→PackageDefinition lookup",
and §4.1 together with `generateAndBootstrapPackage` fix the lookup
failure message "no such package: NAME". -/
def getPackageByName (pi : packageIndex) (name : Str) : Option packageDefinition :=
  pi.orderedPackages.find? (fun pd => pd.PackageName == name)

/-- Model of `getRequired` from selectcmd.go, resolving names through
the index (a name outside the index has no definition and hence no
edges). -/
def getRequired (pi : packageIndex) (name : Str) : List Str :=
  match getPackageByName pi name with
  | some pd => pd.required
  | none => []

/-- Model of `getDependent` from selectcmd.go. -/
def getDependent (pi : packageIndex) (name : Str) : List Str :=
  match getPackageByName pi name with
  | some pd => pd.dependent
  | none => []

/-- Fuel-limited rendering of `applyToSubtree` from selectcmd.go: a
queue-based walk that pops the head, records it, and appends its
`direction` neighbours to the queue, with no visited-set
deduplication, exactly as in the source.  The function returns the
sequence of visited nodes (the Go version instead invokes an `action`
on each visited node; the callers' actions are reproduced below as
folds over this sequence, which is equivalent because the actions
never influence the traversal).  `none` means the fuel ran out, which
on an acyclic graph never happens for sufficiently large fuel. -/
def applyToSubtree (dir : Str → List Str) : Nat → List Str → Option (List Str)
  | _, [] => some []
  | 0, _ :: _ => none
  | fuel + 1, v :: q => (applyToSubtree dir fuel (q ++ dir v)).map (fun vs => v :: vs)

/-! ## Go map model -/

abbrev strMap (A : Type) := List (Str × A)

def mapUpd {A : Type} (m : strMap A) (k : Str) (v : A) : strMap A := (k, v) :: m

def mapGet {A : Type} (m : strMap A) (k : Str) (d : A) : A :=
  match m.find? (fun p => p.1 == k) with
  | some p => p.2
  | none => d

/-! ## Selection state and token processing -/

/-- The mutable state of `packageRangesToFlatSelection`: the `selected`
and `marked` maps, the current generation `mark`, and the current
`inclusion` mode. -/
structure selState where
  selected : strMap Bool
  marked : strMap Nat
  mark : Nat
  inclusion : Bool
deriving Repr

def initialSelState : selState := ⟨[], [], 0, true⟩

def unknownPackageMsg (name : Str) : Str := str "no such package: " ++ name

/-- The per-token loop of `packageRangesToFlatSelection` that resolves
each side of a (split) range token through `getPackageByName`,
reporting the first unresolvable name; an empty side contributes `none`
to the range.  Mirrors the `for _, pkgName := range strings.SplitN(...)`
loop of the source. -/
def resolveRangeParts (pi : packageIndex) :
    List Str → Except Str (List (Option packageDefinition))
  | [] => .ok []
  | name :: rest =>
    if name = [] then
      (resolveRangeParts pi rest).map (fun l => none :: l)
    else
      match getPackageByName pi name with
      | none => .error (unknownPackageMsg name)
      | some pd => (resolveRangeParts pi rest).map (fun l => some pd :: l)

/-- One iteration of the `for _, arg := range args` loop of
`packageRangesToFlatSelection`.  The three walk actions of the source
(`selectPackage`, `markPackage`, `selectIfMarked`) are reproduced as
folds over the visited-node sequence of the corresponding
`applyToSubtree` walk. -/
def processToken (pi : packageIndex) (fuel : Nat) (st : selState) (arg : Str) :
    Option (Except Str selState) :=
  if arg = str "+" then some (.ok { st with inclusion := true })
  else if arg = str "-" then some (.ok { st with inclusion := false })
  else
    match resolveRangeParts pi (splitN2 arg) with
    | .error e => some (.error e)
    | .ok parts =>
      if parts.all (fun p => p = none) then some (.ok st)
      else
        match parts with
        | [_only] =>
          some (.ok { st with selected := mapUpd st.selected arg st.inclusion })
        | [none, some toPd] =>
          (applyToSubtree (getRequired pi) fuel [toPd.PackageName]).map (fun visited =>
            .ok { st with selected :=
              visited.foldl (fun m n => mapUpd m n st.inclusion) st.selected })
        | [some fromPd, none] =>
          (applyToSubtree (getDependent pi) fuel [fromPd.PackageName]).map (fun visited =>
            .ok { st with selected :=
              visited.foldl (fun m n => mapUpd m n st.inclusion) st.selected })
        | [some fromPd, some toPd] =>
          match applyToSubtree (getRequired pi) fuel [toPd.PackageName] with
          | none => none
          | some markVisited =>
            let mark' := st.mark + 1
            let marked' := markVisited.foldl (fun m n => mapUpd m n mark') st.marked
            match applyToSubtree (getDependent pi) fuel [fromPd.PackageName] with
            | none => none
            | some selVisited =>
              some (.ok { st with
                mark := mark'
                marked := marked'
                selected := selVisited.foldl
                  (fun m n => if mapGet marked' n 0 = mark' then
                      mapUpd m n st.inclusion
                    else m) st.selected })
        | _ => some (.ok st)

def resolveTokens (pi : packageIndex) (fuel : Nat) :
    selState → List Str → Option (Except Str selState)
  | st, [] => some (.ok st)
  | st, arg :: rest =>
    match processToken pi fuel st arg with
    | none => none
    | some (.error e) => some (.error e)
    | some (.ok st') => resolveTokens pi fuel st' rest

/-- Model of `packageRangesToFlatSelection` from selectcmd.go: apply
every token to the selection state, then return the subsequence of the
index's definition order whose `selected` flag is true.  The extra
`fuel` argument bounds the closure walks (`none` = a walk would not
have terminated within the given fuel). -/
def packageRangesToFlatSelection (pi : packageIndex) (args : List Str) (fuel : Nat) :
    Option (Except Str (List packageDefinition)) :=
  (resolveTokens pi fuel initialSelState args).map (fun r =>
    r.map (fun st =>
      pi.orderedPackages.filter (fun pd => mapGet st.selected pd.PackageName false)))

/-! ## Well-formedness of a package index -/

/-- Names are unique keys of the index. -/
def nodupNames (pi : packageIndex) : Prop :=
  (pi.orderedPackages.map (fun pd => pd.PackageName)).Nodup

/-- Every `required`/`dependent` entry names a package of the index. -/
def edgesClosed (pi : packageIndex) : Prop :=
  ∀ a ∈ pi.orderedPackages,
    (∀ n ∈ a.required, ∃ b ∈ pi.orderedPackages, b.PackageName = n) ∧
    (∀ n ∈ a.dependent, ∃ b ∈ pi.orderedPackages, b.PackageName = n)

/-- `required` and `dependent` are exact inverses (spec §3 invariant). -/
def edgesInverse (pi : packageIndex) : Prop :=
  ∀ a ∈ pi.orderedPackages, ∀ b ∈ pi.orderedPackages,
    (b.PackageName ∈ a.required ↔ a.PackageName ∈ b.dependent)

def memIndex (pi : packageIndex) (n : Str) : Prop :=
  ∃ pd ∈ pi.orderedPackages, pd.PackageName = n

/-- One dependency edge, followed from the depending package down to a
package it depends on (a `required` edge). -/
def reqStep (pi : packageIndex) (a b : Str) : Prop := b ∈ getRequired pi a

/-- One dependency edge followed upwards (a `dependent` edge). -/
def depStep (pi : packageIndex) (a b : Str) : Prop := b ∈ getDependent pi a

/-- `b` transitively depends on `a` (or equals it): reachability along
`dependent` edges. -/
def reachDep (pi : packageIndex) (a b : Str) : Prop :=
  Relation.ReflTransGen (depStep pi) a b

/-- Reachability along `required` edges. -/
def reachReq (pi : packageIndex) (a b : Str) : Prop :=
  Relation.ReflTransGen (reqStep pi) a b

/-! ## Helper lemmas: the association-list map model -/

theorem mapGet_nil {A : Type} (k : Str) (d : A) : mapGet ([] : strMap A) k d = d := rfl

theorem mapGet_mapUpd {A : Type} (m : strMap A) (k k' : Str) (v d : A) :
    mapGet (mapUpd m k v) k' d = if k' = k then v else mapGet m k' d := by
  by_cases h : k' = k
  · subst h
    simp [mapGet, mapUpd, List.find?_cons]
  · have hne : (k == k') = false := by
      simp only [beq_eq_false_iff_ne, ne_eq]
      exact fun hc => h hc.symm
    simp [mapGet, mapUpd, List.find?_cons, hne, h]

theorem mapGet_foldl_upd {A : Type} (visited : List Str) (v : A) :
    ∀ (m : strMap A) (k : Str) (d : A),
      mapGet (visited.foldl (fun acc n => mapUpd acc n v) m) k d =
        if k ∈ visited then v else mapGet m k d := by
  induction visited with
  | nil => intro m k d; simp
  | cons n rest ih =>
    intro m k d
    simp only [List.foldl_cons, ih, mapGet_mapUpd, List.mem_cons]
    by_cases hk : k ∈ rest
    · simp [hk]
    · by_cases he : k = n <;> simp [hk, he]

theorem mapGet_foldl_updIf {A : Type} (visited : List Str) (P : Str → Prop)
    [DecidablePred P] (v : A) :
    ∀ (m : strMap A) (k : Str) (d : A),
      mapGet (visited.foldl (fun acc n => if P n then mapUpd acc n v else acc) m) k d =
        if k ∈ visited ∧ P k then v else mapGet m k d := by
  induction visited with
  | nil => intro m k d; simp
  | cons n rest ih =>
    intro m k d
    simp only [List.foldl_cons, List.mem_cons]
    by_cases hp : P n
    · rw [if_pos hp, ih, mapGet_mapUpd]
      by_cases hk : k ∈ rest ∧ P k
      · rw [if_pos hk, if_pos ⟨Or.inr hk.1, hk.2⟩]
      · by_cases he : k = n
        · subst he
          rw [if_neg hk, if_pos rfl, if_pos ⟨Or.inl rfl, hp⟩]
        · rw [if_neg hk, if_neg he, if_neg]
          rintro ⟨hor, hPk⟩
          rcases hor with h1 | h1
          · exact he h1
          · exact hk ⟨h1, hPk⟩
    · rw [if_neg hp, ih]
      by_cases hk : k ∈ rest ∧ P k
      · rw [if_pos hk, if_pos ⟨Or.inr hk.1, hk.2⟩]
      · rw [if_neg hk, if_neg]
        rintro ⟨hor, hPk⟩
        rcases hor with h1 | h1
        · subst h1; exact hp hPk
        · exact hk ⟨h1, hPk⟩

/-! ## Helper lemmas: the closure walk -/

/-- One step of a direction function. -/
def stepRel (dir : Str → List Str) (a b : Str) : Prop := b ∈ dir a

/-- A completed walk visits exactly the nodes reachable from the queue. -/
theorem applyToSubtree_mem_iff (dir : Str → List Str) :
    ∀ (fuel : Nat) (q vs : List Str), applyToSubtree dir fuel q = some vs →
      ∀ x, x ∈ vs ↔ ∃ v ∈ q, Relation.ReflTransGen (stepRel dir) v x := by
  intro fuel
  induction fuel with
  | zero =>
    intro q vs h x
    cases q with
    | nil =>
      simp only [applyToSubtree, Option.some.injEq] at h
      subst h; simp
    | cons v q' => simp [applyToSubtree] at h
  | succ f ih =>
    intro q vs h x
    cases q with
    | nil =>
      simp only [applyToSubtree, Option.some.injEq] at h
      subst h; simp
    | cons v q' =>
      simp only [applyToSubtree, Option.map_eq_some'] at h
      obtain ⟨vs', h', rfl⟩ := h
      have hrec := ih (q' ++ dir v) vs' h' x
      constructor
      · intro hx
        rcases List.mem_cons.mp hx with rfl | hx'
        · exact ⟨x, List.mem_cons_self x q', Relation.ReflTransGen.refl⟩
        · obtain ⟨u, hu, hre⟩ := hrec.mp hx'
          rcases List.mem_append.mp hu with h1 | h1
          · exact ⟨u, List.mem_cons_of_mem _ h1, hre⟩
          · exact ⟨v, List.mem_cons_self v q', Relation.ReflTransGen.head h1 hre⟩
      · rintro ⟨u, hu, hre⟩
        rcases List.mem_cons.mp hu with rfl | h1
        · rcases Relation.ReflTransGen.cases_head hre with rfl | ⟨c, hc, hcr⟩
          · exact List.mem_cons_self _ _
          · exact List.mem_cons_of_mem _
              (hrec.mpr ⟨c, List.mem_append.mpr (Or.inr hc), hcr⟩)
        · exact List.mem_cons_of_mem _ (hrec.mpr ⟨u, List.mem_append.mpr (Or.inl h1), hre⟩)

/-- Termination measure for a walk: the number of loop iterations the
queue discipline performs from one root, computed to a given depth. -/
def walkMeasure (dir : Str → List Str) : Nat → Str → Nat
  | 0, _ => 1
  | d + 1, v => 1 + ((dir v).map (walkMeasure dir d)).sum

theorem walkMeasure_pos (dir : Str → List Str) (d : Nat) (v : Str) :
    1 ≤ walkMeasure dir d v := by
  cases d <;> simp [walkMeasure]

theorem walkMeasure_stable (dir : Str → List Str) (rank : Str → Nat) (N : Nat)
    (hrank : ∀ a b, b ∈ dir a → rank a < rank b) (hN : ∀ v, rank v < N) :
    ∀ d₁ d₂ v, N - rank v ≤ d₁ → N - rank v ≤ d₂ →
      walkMeasure dir d₁ v = walkMeasure dir d₂ v := by
  intro d₁
  induction d₁ with
  | zero =>
    intro d₂ v h1 _
    have := hN v; omega
  | succ f ih =>
    intro d₂ v h1 h2
    cases d₂ with
    | zero => have := hN v; omega
    | succ g =>
      simp only [walkMeasure]
      congr 1
      apply congrArg
      apply List.map_congr_left
      intro w hw
      have hlt := hrank v w hw
      have hNw := hN w
      exact ih g w (by omega) (by omega)

theorem walkMeasure_unfold (dir : Str → List Str) (rank : Str → Nat) (N : Nat)
    (hrank : ∀ a b, b ∈ dir a → rank a < rank b) (hN : ∀ v, rank v < N) (v : Str) :
    walkMeasure dir N v = 1 + ((dir v).map (walkMeasure dir N)).sum := by
  have hpos : 1 ≤ N := by have := hN v; omega
  obtain ⟨M, rfl⟩ : ∃ M, N = M + 1 := ⟨N - 1, by omega⟩
  simp only [walkMeasure]
  congr 1
  apply congrArg
  apply List.map_congr_left
  intro w hw
  have hlt := hrank v w hw
  have hNw := hN w
  exact walkMeasure_stable dir rank (M + 1) hrank hN M (M + 1) w (by omega) (by omega)

/-- On a graph admitting a (bounded) topological rank, the queue walk
terminates once given at least as much fuel as the sum of the measures
of the queued roots. -/
theorem applyToSubtree_total (dir : Str → List Str) (rank : Str → Nat) (N : Nat)
    (hrank : ∀ a b, b ∈ dir a → rank a < rank b) (hN : ∀ v, rank v < N) :
    ∀ (fuel : Nat) (q : List Str), (q.map (walkMeasure dir N)).sum ≤ fuel →
      (applyToSubtree dir fuel q).isSome := by
  intro fuel
  induction fuel with
  | zero =>
    intro q hq
    cases q with
    | nil => simp [applyToSubtree]
    | cons v q' =>
      exfalso
      have h1 := walkMeasure_pos dir N v
      simp only [List.map_cons, List.sum_cons] at hq
      omega
  | succ f ih =>
    intro q hq
    cases q with
    | nil => simp [applyToSubtree]
    | cons v q' =>
      simp only [applyToSubtree, Option.isSome_map']
      apply ih
      simp only [List.map_append, List.sum_append, List.map_cons, List.sum_cons] at hq ⊢
      rw [walkMeasure_unfold dir rank N hrank hN v] at hq
      omega

/-! ## Helper lemmas: index lookups -/

theorem getPackageByName_mem {pi : packageIndex} {n : Str} {pd : packageDefinition}
    (h : getPackageByName pi n = some pd) :
    pd ∈ pi.orderedPackages ∧ pd.PackageName = n := by
  refine ⟨List.mem_of_find?_eq_some h, ?_⟩
  have := List.find?_some h
  simpa using this

theorem getPackageByName_isSome_iff {pi : packageIndex} {n : Str} :
    (getPackageByName pi n).isSome ↔ memIndex pi n := by
  unfold getPackageByName memIndex
  rw [List.find?_isSome]
  constructor
  · rintro ⟨pd, hpd, hname⟩
    exact ⟨pd, hpd, by simpa using hname⟩
  · rintro ⟨pd, hpd, hname⟩
    exact ⟨pd, hpd, by simpa using hname⟩

theorem nodup_name_eq {pi : packageIndex} (hnodup : nodupNames pi)
    {a b : packageDefinition} (ha : a ∈ pi.orderedPackages) (hb : b ∈ pi.orderedPackages)
    (hn : a.PackageName = b.PackageName) : a = b := by
  unfold nodupNames at hnodup
  have := List.inj_on_of_nodup_map hnodup
  exact this ha hb hn

theorem getPackageByName_of_mem {pi : packageIndex} (hnodup : nodupNames pi)
    {pd : packageDefinition} (h : pd ∈ pi.orderedPackages) :
    getPackageByName pi pd.PackageName = some pd := by
  have hsome : (getPackageByName pi pd.PackageName).isSome :=
    getPackageByName_isSome_iff.mpr ⟨pd, h, rfl⟩
  obtain ⟨q, hq⟩ := Option.isSome_iff_exists.mp hsome
  obtain ⟨hqmem, hqname⟩ := getPackageByName_mem hq
  rw [hq, nodup_name_eq hnodup hqmem h hqname]

/-- With unique names, closed edge lists and the required/dependent
inverse invariant, a `required` edge at name level is exactly a
`dependent` edge in the opposite direction. -/
theorem req_dep_adjoint {pi : packageIndex} (hnodup : nodupNames pi)
    (hclosed : edgesClosed pi) (hinv : edgesInverse pi) (a b : Str) :
    b ∈ getRequired pi a ↔ a ∈ getDependent pi b := by
  constructor
  · intro h
    unfold getRequired at h
    cases hpa : getPackageByName pi a with
    | none => rw [hpa] at h; simp at h
    | some pda =>
      rw [hpa] at h
      obtain ⟨hmema, hnamea⟩ := getPackageByName_mem hpa
      obtain ⟨pdb, hmemb, hnameb⟩ := (hclosed pda hmema).1 b h
      have : pda.PackageName ∈ pdb.dependent := by
        have := hinv pda hmema pdb hmemb
        rw [hnameb] at this
        exact this.mp h
      unfold getDependent
      rw [← hnameb, getPackageByName_of_mem hnodup hmemb, ← hnamea]
      exact this
  · intro h
    unfold getDependent at h
    cases hpb : getPackageByName pi b with
    | none => rw [hpb] at h; simp at h
    | some pdb =>
      rw [hpb] at h
      obtain ⟨hmemb, hnameb⟩ := getPackageByName_mem hpb
      obtain ⟨pda, hmema, hnamea⟩ := (hclosed pdb hmemb).2 a h
      have : pdb.PackageName ∈ pda.required := by
        have := hinv pda hmema pdb hmemb
        rw [hnamea] at this
        exact this.mpr h
      unfold getRequired
      rw [← hnamea, getPackageByName_of_mem hnodup hmema, ← hnameb]
      exact this

/-- Reachability along `required` edges is reachability along
`dependent` edges in the opposite direction. -/
theorem reachReq_iff_reachDep {pi : packageIndex} (hnodup : nodupNames pi)
    (hclosed : edgesClosed pi) (hinv : edgesInverse pi) (a b : Str) :
    reachReq pi a b ↔ reachDep pi b a := by
  unfold reachReq reachDep
  rw [← Relation.reflTransGen_swap]
  constructor
  · intro h
    apply Relation.ReflTransGen.mono ?_ h
    intro x y hxy
    exact (req_dep_adjoint hnodup hclosed hinv y x).mp hxy
  · intro h
    apply Relation.ReflTransGen.mono ?_ h
    intro x y hxy
    exact (req_dep_adjoint hnodup hclosed hinv y x).mpr hxy

/-! ## Helper lemmas: token splitting -/

theorem splitFirst_not_mem {s : Str} (h : ':' ∉ s) : splitFirst [':'] s = none := by
  induction s with
  | nil => rfl
  | cons c rest ih =>
    have hc : c ≠ ':' := fun hc => h (by rw [hc]; exact List.mem_cons_self _ _)
    have hrest : ':' ∉ rest := fun hr => h (List.mem_cons_of_mem _ hr)
    simp only [splitFirst]
    rw [if_neg (by simp [List.isPrefixOf]; exact Ne.symm hc), ih hrest]

theorem splitFirst_at_colon {f t : Str} (hf : ':' ∉ f) :
    splitFirst [':'] (f ++ ':' :: t) = some (f, t) := by
  induction f with
  | nil =>
    simp [splitFirst, List.isPrefixOf]
  | cons c rest ih =>
    have hc : c ≠ ':' := fun hc => hf (by rw [hc]; exact List.mem_cons_self _ _)
    have hrest : ':' ∉ rest := fun hr => hf (List.mem_cons_of_mem _ hr)
    simp only [List.cons_append, splitFirst]
    rw [if_neg (by simp [List.isPrefixOf]; exact Ne.symm hc), List.append_eq, ih hrest]

theorem splitN2_no_colon {s : Str} (h : ':' ∉ s) : splitN2 s = [s] := by
  unfold splitN2
  rw [splitFirst_not_mem h]

theorem splitN2_range {f t : Str} (hf : ':' ∉ f) :
    splitN2 (f ++ ':' :: t) = [f, t] := by
  unfold splitN2
  rw [splitFirst_at_colon hf]

/-! ## Helper lemmas: sublists of a duplicate-free list -/

theorem sublist_eq_of_mem_iff {α : Type} {l l₁ l₂ : List α}
    (h₁ : l₁.Sublist l) (h₂ : l₂.Sublist l) (hnodup : l.Nodup)
    (hmem : ∀ x, x ∈ l₁ ↔ x ∈ l₂) : l₁ = l₂ := by
  induction l generalizing l₁ l₂ with
  | nil =>
    rw [List.sublist_nil.mp h₁, List.sublist_nil.mp h₂]
  | cons a t ih =>
    have hna : a ∉ t := (List.nodup_cons.mp hnodup).1
    have hnt : t.Nodup := (List.nodup_cons.mp hnodup).2
    cases h₁ with
    | cons _ h₁' =>
      cases h₂ with
      | cons _ h₂' => exact ih h₁' h₂' hnt hmem
      | cons₂ _ h₂' =>
        exfalso
        have : a ∈ l₁ := (hmem a).mpr (List.mem_cons_self _ _)
        exact hna (h₁'.subset this)
    | cons₂ _ h₁' =>
      cases h₂ with
      | cons _ h₂' =>
        exfalso
        have : a ∈ l₂ := (hmem a).mp (List.mem_cons_self _ _)
        exact hna (h₂'.subset this)
      | cons₂ _ h₂' =>
        congr 1
        apply ih h₁' h₂' hnt
        intro x
        constructor
        · intro hx
          have := (hmem x).mp (List.mem_cons_of_mem _ hx)
          rcases List.mem_cons.mp this with rfl | h
          · exact absurd (h₁'.subset hx) hna
          · exact h
        · intro hx
          have := (hmem x).mpr (List.mem_cons_of_mem _ hx)
          rcases List.mem_cons.mp this with rfl | h
          · exact absurd (h₂'.subset hx) hna
          · exact h

/-! ## Sufficient fuel for the closure walks of a selection -/

/-- A fuel budget sufficient for every closure walk that
`packageRangesToFlatSelection` can start from a package of the index,
on a graph whose `dependent` edges admit the topological rank used in
the measure bound. -/
def selFuel (pi : packageIndex) (N : Nat) : Nat :=
  (pi.orderedPackages.map (fun pd =>
    walkMeasure (getRequired pi) (N + 1) pd.PackageName +
    walkMeasure (getDependent pi) N pd.PackageName)).sum

theorem reqMeasure_le_selFuel {pi : packageIndex} {pd : packageDefinition} (N : Nat)
    (h : pd ∈ pi.orderedPackages) :
    walkMeasure (getRequired pi) (N + 1) pd.PackageName ≤ selFuel pi N := by
  have hmem : walkMeasure (getRequired pi) (N + 1) pd.PackageName +
      walkMeasure (getDependent pi) N pd.PackageName ∈
      pi.orderedPackages.map (fun pd =>
        walkMeasure (getRequired pi) (N + 1) pd.PackageName +
        walkMeasure (getDependent pi) N pd.PackageName) :=
    List.mem_map_of_mem _ h
  have := List.single_le_sum (fun x _ => Nat.zero_le x) _ hmem
  unfold selFuel
  omega

theorem depMeasure_le_selFuel {pi : packageIndex} {pd : packageDefinition} (N : Nat)
    (h : pd ∈ pi.orderedPackages) :
    walkMeasure (getDependent pi) N pd.PackageName ≤ selFuel pi N := by
  have hmem : walkMeasure (getRequired pi) (N + 1) pd.PackageName +
      walkMeasure (getDependent pi) N pd.PackageName ∈
      pi.orderedPackages.map (fun pd =>
        walkMeasure (getRequired pi) (N + 1) pd.PackageName +
        walkMeasure (getDependent pi) N pd.PackageName) :=
    List.mem_map_of_mem _ h
  have := List.single_le_sum (fun x _ => Nat.zero_le x) _ hmem
  unfold selFuel
  omega

/-- A topological rank on `dependent` edges induces one on `required`
edges (via the inverse invariant), bounded by `N + 1`. -/
theorem reqRank_of_depRank {pi : packageIndex} (hnodup : nodupNames pi)
    (hclosed : edgesClosed pi) (hinv : edgesInverse pi) (rank : Str → Nat) (N : Nat)
    (hrank : ∀ a b, b ∈ getDependent pi a → rank a < rank b) (hN : ∀ v, rank v < N) :
    ∀ a b, b ∈ getRequired pi a → N - rank a < N - rank b := by
  intro a b h
  have hadj := (req_dep_adjoint hnodup hclosed hinv a b).mp h
  have h1 := hrank b a hadj
  have h2 := hN a
  omega

theorem reqWalk_total {pi : packageIndex} (hnodup : nodupNames pi)
    (hclosed : edgesClosed pi) (hinv : edgesInverse pi) (rank : Str → Nat) (N : Nat)
    (hrank : ∀ a b, b ∈ getDependent pi a → rank a < rank b) (hN : ∀ v, rank v < N)
    {pd : packageDefinition} (hmem : pd ∈ pi.orderedPackages) :
    (applyToSubtree (getRequired pi) (selFuel pi N) [pd.PackageName]).isSome := by
  apply applyToSubtree_total (getRequired pi) (fun v => N - rank v) (N + 1)
    (reqRank_of_depRank hnodup hclosed hinv rank N hrank hN)
    (fun v => by show N - rank v < N + 1; omega)
  simpa using reqMeasure_le_selFuel N hmem

theorem depWalk_total {pi : packageIndex} (rank : Str → Nat) (N : Nat)
    (hrank : ∀ a b, b ∈ getDependent pi a → rank a < rank b) (hN : ∀ v, rank v < N)
    {pd : packageDefinition} (hmem : pd ∈ pi.orderedPackages) :
    (applyToSubtree (getDependent pi) (selFuel pi N) [pd.PackageName]).isSome := by
  apply applyToSubtree_total (getDependent pi) rank N hrank hN
  simpa using depMeasure_le_selFuel N hmem

/-! ## Characterisation of token processing -/

theorem range_token_ne_plus (f t : Str) : f ++ ':' :: t ≠ str "+" := by
  intro h
  have hmem : ':' ∈ f ++ ':' :: t := List.mem_append_right _ (List.mem_cons_self _ _)
  rw [h] at hmem
  exact absurd hmem (by decide)

theorem range_token_ne_minus (f t : Str) : f ++ ':' :: t ≠ str "-" := by
  intro h
  have hmem : ':' ∈ f ++ ':' :: t := List.mem_append_right _ (List.mem_cons_self _ _)
  rw [h] at hmem
  exact absurd hmem (by decide)

theorem resolveRangeParts_two {pi : packageIndex} {f t : Str}
    {pdF pdT : packageDefinition} (hfe : f ≠ []) (hte : t ≠ [])
    (hF : getPackageByName pi f = some pdF) (hT : getPackageByName pi t = some pdT) :
    resolveRangeParts pi [f, t] = .ok [some pdF, some pdT] := by
  simp [resolveRangeParts, hfe, hte, hF, hT, Except.map]

/-- Processing a `FROM:TO` token with both sides resolvable: increment
the mark, tag the required-closure of `TO`, then apply the selection to
the tagged part of the dependent-closure of `FROM`. -/
theorem processToken_range {pi : packageIndex} (st : selState) (fuel : Nat)
    {f t : Str} {pdF pdT : packageDefinition}
    (hfc : ':' ∉ f) (hfe : f ≠ []) (hte : t ≠ [])
    (hF : getPackageByName pi f = some pdF) (hT : getPackageByName pi t = some pdT)
    {markVisited selVisited : List Str}
    (hmark : applyToSubtree (getRequired pi) fuel [pdT.PackageName] = some markVisited)
    (hsel : applyToSubtree (getDependent pi) fuel [pdF.PackageName] = some selVisited) :
    processToken pi fuel st (f ++ ':' :: t) = some (.ok { st with
      mark := st.mark + 1,
      marked := markVisited.foldl (fun m n => mapUpd m n (st.mark + 1)) st.marked,
      selected := selVisited.foldl (fun m n =>
        if mapGet (markVisited.foldl (fun m' n' => mapUpd m' n' (st.mark + 1)) st.marked)
            n 0 = st.mark + 1 then
          mapUpd m n st.inclusion
        else m) st.selected }) := by
  unfold processToken
  rw [if_neg (range_token_ne_plus f t), if_neg (range_token_ne_minus f t),
    splitN2_range hfc, resolveRangeParts_two hfe hte hF hT]
  simp only [List.all_cons, List.all_nil]
  rw [if_neg (by simp)]
  rw [hmark, hsel]

/-- C1: for every acyclic package graph (acyclicity witnessed by a
bounded topological rank on `dependent` edges) with unique names,
closed edge lists and exact inverse `required`/`dependent` edges, and
for packages `FROM` and `TO` known to the index, resolving the single
range token `FROM:TO` selects exactly the set of packages lying on
some directed dependency path from `FROM` to `TO` (following
`dependent` edges, both endpoints included); when no such path exists
this set, and hence the selection, is empty. -/
theorem C1_from_to_selects_exactly_path_packages
    (pi : packageIndex) (fromName toName : Str) (rank : Str → Nat) (N : Nat)
    (hnodup : nodupNames pi) (hclosed : edgesClosed pi) (hinv : edgesInverse pi)
    (hrank : ∀ a b, b ∈ getDependent pi a → rank a < rank b)
    (hN : ∀ v, rank v < N)
    (hfrom : memIndex pi fromName) (hto : memIndex pi toName)
    (hfc : ':' ∉ fromName)
    (hfe : fromName ≠ []) (hte : toName ≠ []) :
    ∃ fuel sel,
      packageRangesToFlatSelection pi [fromName ++ ':' :: toName] fuel = some (.ok sel) ∧
      ∀ pd, pd ∈ sel ↔ pd ∈ pi.orderedPackages ∧
        reachDep pi fromName pd.PackageName ∧ reachDep pi pd.PackageName toName := by
  obtain ⟨pdF, hFmem, hFname⟩ := hfrom
  obtain ⟨pdT, hTmem, hTname⟩ := hto
  have hF : getPackageByName pi fromName = some pdF := by
    rw [← hFname]; exact getPackageByName_of_mem hnodup hFmem
  have hT : getPackageByName pi toName = some pdT := by
    rw [← hTname]; exact getPackageByName_of_mem hnodup hTmem
  obtain ⟨markVisited, hmark⟩ :=
    Option.isSome_iff_exists.mp (reqWalk_total hnodup hclosed hinv rank N hrank hN hTmem)
  obtain ⟨selVisited, hsel⟩ :=
    Option.isSome_iff_exists.mp (depWalk_total rank N hrank hN hFmem)
  have hproc := processToken_range initialSelState (selFuel pi N) hfc hfe hte hF hT hmark hsel
  have hrt : resolveTokens pi (selFuel pi N) initialSelState [fromName ++ ':' :: toName] =
      some (.ok { initialSelState with
        mark := initialSelState.mark + 1,
        marked := markVisited.foldl
          (fun m n => mapUpd m n (initialSelState.mark + 1)) initialSelState.marked,
        selected := selVisited.foldl (fun m n =>
          if mapGet (markVisited.foldl
              (fun m' n' => mapUpd m' n' (initialSelState.mark + 1)) initialSelState.marked)
              n 0 = initialSelState.mark + 1 then
            mapUpd m n initialSelState.inclusion
          else m) initialSelState.selected }) := by
    simp only [resolveTokens, hproc]
  refine ⟨selFuel pi N, pi.orderedPackages.filter (fun pd =>
    mapGet (selVisited.foldl (fun m n =>
      if mapGet (markVisited.foldl
          (fun m' n' => mapUpd m' n' (initialSelState.mark + 1)) initialSelState.marked)
          n 0 = initialSelState.mark + 1 then
        mapUpd m n initialSelState.inclusion
      else m) initialSelState.selected) pd.PackageName false), ?_, ?_⟩
  · unfold packageRangesToFlatSelection
    rw [hrt]
    rfl
  · intro pd
    rw [List.mem_filter]
    constructor
    · rintro ⟨hmem, hflag⟩
      refine ⟨hmem, ?_, ?_⟩
      · have := mapGet_foldl_updIf selVisited
          (fun n => mapGet (markVisited.foldl
            (fun m' n' => mapUpd m' n' (initialSelState.mark + 1)) initialSelState.marked)
            n 0 = initialSelState.mark + 1) initialSelState.inclusion
          initialSelState.selected pd.PackageName false
        rw [this] at hflag
        by_cases hcond : pd.PackageName ∈ selVisited ∧
            mapGet (markVisited.foldl
              (fun m' n' => mapUpd m' n' (initialSelState.mark + 1)) initialSelState.marked)
              pd.PackageName 0 = initialSelState.mark + 1
        · have hv := (applyToSubtree_mem_iff (getDependent pi) _ _ _ hsel
            pd.PackageName).mp hcond.1
          obtain ⟨v, hv1, hv2⟩ := hv
          rcases List.mem_cons.mp hv1 with rfl | hfalse
          · rw [← hFname]; exact hv2
          · simp at hfalse
        · rw [if_neg hcond] at hflag
          simp [initialSelState, mapGet_nil] at hflag
      · have := mapGet_foldl_updIf selVisited
          (fun n => mapGet (markVisited.foldl
            (fun m' n' => mapUpd m' n' (initialSelState.mark + 1)) initialSelState.marked)
            n 0 = initialSelState.mark + 1) initialSelState.inclusion
          initialSelState.selected pd.PackageName false
        rw [this] at hflag
        by_cases hcond : pd.PackageName ∈ selVisited ∧
            mapGet (markVisited.foldl
              (fun m' n' => mapUpd m' n' (initialSelState.mark + 1)) initialSelState.marked)
              pd.PackageName 0 = initialSelState.mark + 1
        · have hmk := hcond.2
          rw [mapGet_foldl_upd] at hmk
          by_cases hin : pd.PackageName ∈ markVisited
          · have hv := (applyToSubtree_mem_iff (getRequired pi) _ _ _ hmark
              pd.PackageName).mp hin
            obtain ⟨v, hv1, hv2⟩ := hv
            rcases List.mem_cons.mp hv1 with rfl | hfalse
            · rw [← hTname]
              exact (reachReq_iff_reachDep hnodup hclosed hinv _ _).mp hv2
            · simp at hfalse
          · rw [if_neg hin] at hmk
            simp [initialSelState, mapGet_nil] at hmk
        · rw [if_neg hcond] at hflag
          simp [initialSelState, mapGet_nil] at hflag
    · rintro ⟨hmem, hreachF, hreachT⟩
      refine ⟨hmem, ?_⟩
      have hinsel : pd.PackageName ∈ selVisited := by
        apply (applyToSubtree_mem_iff (getDependent pi) _ _ _ hsel pd.PackageName).mpr
        exact ⟨pdF.PackageName, List.mem_cons_self _ _, by rw [hFname]; exact hreachF⟩
      have hinmark : pd.PackageName ∈ markVisited := by
        apply (applyToSubtree_mem_iff (getRequired pi) _ _ _ hmark pd.PackageName).mpr
        refine ⟨pdT.PackageName, List.mem_cons_self _ _, ?_⟩
        rw [hTname]
        exact (reachReq_iff_reachDep hnodup hclosed hinv _ _).mpr hreachT
      have hupdIf := mapGet_foldl_updIf selVisited
        (fun n => mapGet (markVisited.foldl
          (fun m' n' => mapUpd m' n' (initialSelState.mark + 1)) initialSelState.marked)
          n 0 = initialSelState.mark + 1) initialSelState.inclusion
        initialSelState.selected pd.PackageName false
      rw [hupdIf, if_pos]
      · rfl
      · refine ⟨hinsel, ?_⟩
        rw [mapGet_foldl_upd, if_pos hinmark]

/-! ## The example index of spec §8: A ← B ← C -/

def pdA : packageDefinition := ⟨str "A", [], [str "B"]⟩

def pdB : packageDefinition := ⟨str "B", [str "A"], [str "C"]⟩

def pdC : packageDefinition := ⟨str "C", [str "B"], []⟩

def piABC : packageIndex := ⟨[pdA, pdB, pdC]⟩

def rankABC (v : Str) : Nat := if v = str "A" then 0 else if v = str "B" then 1 else 2

theorem getPackageByName_piABC_none {a : Str} (hA : a ≠ str "A") (hB : a ≠ str "B")
    (hC : a ≠ str "C") : getPackageByName piABC a = none := by
  apply List.find?_eq_none.mpr
  intro pd hpd
  have hcases : pd = pdA ∨ pd = pdB ∨ pd = pdC := by
    simpa [piABC] using hpd
  rcases hcases with rfl | rfl | rfl
  · simpa [pdA] using fun hc => hA hc.symm
  · simpa [pdB] using fun hc => hB hc.symm
  · simpa [pdC] using fun hc => hC hc.symm

theorem rankABC_topo : ∀ a b, b ∈ getDependent piABC a → rankABC a < rankABC b := by
  intro a b h
  by_cases hA : a = str "A"
  · subst hA
    have he : getDependent piABC (str "A") = [str "B"] := by decide
    rw [he] at h
    simp only [List.mem_singleton] at h
    subst h
    decide
  · by_cases hB : a = str "B"
    · subst hB
      have he : getDependent piABC (str "B") = [str "C"] := by decide
      rw [he] at h
      simp only [List.mem_singleton] at h
      subst h
      decide
    · by_cases hC : a = str "C"
      · subst hC
        have he : getDependent piABC (str "C") = [] := by decide
        rw [he] at h
        simp at h
      · exfalso
        unfold getDependent at h
        rw [getPackageByName_piABC_none hA hB hC] at h
        simp at h

theorem rankABC_bound : ∀ v, rankABC v < 3 := by
  intro v
  unfold rankABC
  split_ifs <;> omega

theorem memIndex_A : memIndex piABC (str "A") := ⟨pdA, by simp [piABC], rfl⟩

theorem memIndex_C : memIndex piABC (str "C") := ⟨pdC, by simp [piABC], rfl⟩

/-- Witness for C1 at the example index of spec §8: `A:C` selects
exactly `{A, B, C}` and `C:A` selects nothing. -/
theorem C1_witness :
    (nodupNames piABC ∧ edgesClosed piABC ∧ edgesInverse piABC) ∧
    (∃ fuel sel,
      packageRangesToFlatSelection piABC [str "A" ++ ':' :: str "C"] fuel = some (.ok sel) ∧
      ∀ pd, pd ∈ sel ↔ pd ∈ piABC.orderedPackages ∧
        reachDep piABC (str "A") pd.PackageName ∧ reachDep piABC pd.PackageName (str "C")) ∧
    packageRangesToFlatSelection piABC [str "A:C"] 100 = some (.ok [pdA, pdB, pdC]) ∧
    packageRangesToFlatSelection piABC [str "C:A"] 100 = some (.ok []) := by
  refine ⟨⟨by unfold nodupNames; decide, by unfold edgesClosed; decide,
    by unfold edgesInverse; decide⟩, ?_, by rfl, by rfl⟩
  exact C1_from_to_selects_exactly_path_packages piABC (str "A") (str "C") rankABC 3
    (by unfold nodupNames; decide) (by unfold edgesClosed; decide)
    (by unfold edgesInverse; decide) rankABC_topo rankABC_bound
    memIndex_A memIndex_C (by decide) (by decide) (by decide)

/-! ## C2: selection order -/

theorem packageRangesToFlatSelection_ok {pi : packageIndex} {args : List Str} {fuel : Nat}
    {r : List packageDefinition}
    (h : packageRangesToFlatSelection pi args fuel = some (.ok r)) :
    ∃ st, resolveTokens pi fuel initialSelState args = some (.ok st) ∧
      r = pi.orderedPackages.filter (fun pd => mapGet st.selected pd.PackageName false) := by
  unfold packageRangesToFlatSelection at h
  rw [Option.map_eq_some'] at h
  obtain ⟨e, he, hmap⟩ := h
  cases e with
  | error e' => simp [Except.map] at hmap
  | ok st =>
    refine ⟨st, he, ?_⟩
    simp only [Except.map, Except.ok.injEq] at hmap
    exact hmap.symm

/-- C2: whenever token resolution succeeds, the returned selection is
the subsequence of the index's definition order consisting of exactly
the packages whose `selected` flag is true after folding all tokens
over the initial state (the fold applies tokens in sequence, so a later
write to the same package wins and the mode in force at application
time decides the flag); it is a sublist of the definition order, and
any two successful resolutions selecting the same set of packages
return identical (identically ordered) selections, whatever their
token lists were. -/
theorem C2_selection_is_definition_order_subsequence
    (pi : packageIndex) (hnodup : nodupNames pi)
    (args : List Str) (fuel : Nat) (r : List packageDefinition)
    (h : packageRangesToFlatSelection pi args fuel = some (.ok r)) :
    (∃ st, resolveTokens pi fuel initialSelState args = some (.ok st) ∧
      r = pi.orderedPackages.filter (fun pd => mapGet st.selected pd.PackageName false)) ∧
    r.Sublist pi.orderedPackages ∧
    (∀ args' fuel' r',
      packageRangesToFlatSelection pi args' fuel' = some (.ok r') →
      (∀ pd, pd ∈ r ↔ pd ∈ r') → r = r') := by
  obtain ⟨st, hst, hr⟩ := packageRangesToFlatSelection_ok h
  have hsub : r.Sublist pi.orderedPackages := by
    rw [hr]; exact List.filter_sublist _
  refine ⟨⟨st, hst, hr⟩, hsub, ?_⟩
  intro args' fuel' r' h' hmem
  obtain ⟨st', _, hr'⟩ := packageRangesToFlatSelection_ok h'
  have hsub' : r'.Sublist pi.orderedPackages := by
    rw [hr']; exact List.filter_sublist _
  exact sublist_eq_of_mem_iff hsub hsub' (List.Nodup.of_map _ hnodup) hmem

/-- Witness for C2: the selection for the token list `["C", "A"]` on
the example index comes out in definition order `[A, C]`, not in token
order. -/
theorem C2_witness :
    nodupNames piABC ∧
    packageRangesToFlatSelection piABC [str "C", str "A"] 100 = some (.ok [pdA, pdC]) ∧
    ((∃ st, resolveTokens piABC 100 initialSelState [str "C", str "A"] = some (.ok st) ∧
      [pdA, pdC] = piABC.orderedPackages.filter
        (fun pd => mapGet st.selected pd.PackageName false)) ∧
    List.Sublist [pdA, pdC] piABC.orderedPackages ∧
    (∀ args' fuel' r',
      packageRangesToFlatSelection piABC args' fuel' = some (.ok r') →
      (∀ pd, pd ∈ [pdA, pdC] ↔ pd ∈ r') → [pdA, pdC] = r')) :=
  ⟨by unfold nodupNames; decide, by rfl,
    C2_selection_is_definition_order_subsequence piABC (by unfold nodupNames; decide)
      [str "C", str "A"] 100 [pdA, pdC] (by rfl)⟩

/-! ## C3: unknown package names -/

/-- The first side of a (split) token that names no package of the
index, mirroring the scan order of `resolveRangeParts`. -/
def firstUnknownName (pi : packageIndex) : List Str → Option Str
  | [] => none
  | p :: rest =>
    if p = [] then firstUnknownName pi rest
    else
      match getPackageByName pi p with
      | none => some p
      | some _ => firstUnknownName pi rest

/-- The first unresolvable name of a token (`"+"` and `"-"` name no
packages). -/
def firstUnknownInToken (pi : packageIndex) (arg : Str) : Option Str :=
  if arg = str "+" ∨ arg = str "-" then none
  else firstUnknownName pi (splitN2 arg)

/-- The first unresolvable name of a token list, in token order. -/
def firstUnknown (pi : packageIndex) : List Str → Option Str
  | [] => none
  | arg :: rest =>
    match firstUnknownInToken pi arg with
    | some n => some n
    | none => firstUnknown pi rest

theorem resolveRangeParts_error {pi : packageIndex} {parts : List Str} {n : Str}
    (h : firstUnknownName pi parts = some n) :
    resolveRangeParts pi parts = .error (unknownPackageMsg n) := by
  induction parts with
  | nil => simp [firstUnknownName] at h
  | cons p rest ih =>
    unfold firstUnknownName at h
    unfold resolveRangeParts
    by_cases hp : p = []
    · rw [if_pos hp] at h
      rw [if_pos hp, ih h]
      rfl
    · rw [if_neg hp] at h
      rw [if_neg hp]
      cases hl : getPackageByName pi p with
      | none =>
        rw [hl] at h
        simp only [Option.some.injEq] at h
        subst h
        rfl
      | some pd =>
        rw [hl] at h
        rw [ih h]
        rfl

theorem resolveRangeParts_ok_char {pi : packageIndex} {parts : List Str}
    (h : firstUnknownName pi parts = none) :
    resolveRangeParts pi parts =
      .ok (parts.map (fun m => if m = [] then none else getPackageByName pi m)) := by
  induction parts with
  | nil => rfl
  | cons p rest ih =>
    unfold firstUnknownName at h
    unfold resolveRangeParts
    by_cases hp : p = []
    · rw [if_pos hp] at h
      rw [if_pos hp, ih h]
      simp [Except.map, hp]
    · rw [if_neg hp] at h
      rw [if_neg hp]
      cases hl : getPackageByName pi p with
      | none => rw [hl] at h; simp at h
      | some pd =>
        rw [hl] at h
        rw [ih h]
        simp [Except.map, hp, hl]

theorem processToken_error_of_unknown (pi : packageIndex) (fuel : Nat) (st : selState)
    (arg n : Str) (h : firstUnknownInToken pi arg = some n) :
    processToken pi fuel st arg = some (.error (unknownPackageMsg n)) := by
  unfold firstUnknownInToken at h
  by_cases hpm : arg = str "+" ∨ arg = str "-"
  · rw [if_pos hpm] at h; simp at h
  · rw [if_neg hpm] at h
    push_neg at hpm
    unfold processToken
    rw [if_neg hpm.1, if_neg hpm.2, resolveRangeParts_error h]

theorem firstUnknownName_none_known {pi : packageIndex} {parts : List Str}
    (h : firstUnknownName pi parts = none) :
    ∀ p ∈ parts, p ≠ [] → ∃ pd, getPackageByName pi p = some pd := by
  induction parts with
  | nil => intro p hp; simp at hp
  | cons q rest ih =>
    intro p hp hpe
    unfold firstUnknownName at h
    rcases List.mem_cons.mp hp with rfl | hmem
    · rw [if_neg hpe] at h
      cases hl : getPackageByName pi p with
      | none => rw [hl] at h; simp at h
      | some pd => exact ⟨pd, rfl⟩
    · by_cases hq : q = []
      · rw [if_pos hq] at h
        exact ih h p hmem hpe
      · rw [if_neg hq] at h
        cases hl : getPackageByName pi q with
        | none => rw [hl] at h; simp at h
        | some pd =>
          rw [hl] at h
          exact ih h p hmem hpe

theorem splitN2_shape (s : Str) : splitN2 s = [s] ∨ ∃ x y, splitN2 s = [x, y] := by
  unfold splitN2
  cases hsf : splitFirst [':'] s with
  | none => exact Or.inl rfl
  | some p =>
    obtain ⟨x, y⟩ := p
    exact Or.inr ⟨x, y, rfl⟩

theorem processToken_known_cases (pi : packageIndex) (fuel : Nat) (st : selState) (arg : Str)
    (h : firstUnknownInToken pi arg = none) :
    processToken pi fuel st arg = none ∨
      ∃ st', processToken pi fuel st arg = some (.ok st') := by
  by_cases hplus : arg = str "+"
  · exact Or.inr ⟨_, by unfold processToken; rw [if_pos hplus]⟩
  · by_cases hminus : arg = str "-"
    · exact Or.inr ⟨_, by unfold processToken; rw [if_neg hplus, if_pos hminus]⟩
    · unfold firstUnknownInToken at h
      rw [if_neg (show ¬(arg = str "+" ∨ arg = str "-") by
        push_neg; exact ⟨hplus, hminus⟩)] at h
      rcases splitN2_shape arg with hs | ⟨x, y, hs⟩
      · rw [hs] at h
        have hknown := firstUnknownName_none_known h
        by_cases hae : arg = []
        · refine Or.inr ⟨st, ?_⟩
          unfold processToken
          rw [if_neg hplus, if_neg hminus, hs, resolveRangeParts_ok_char h]
          simp [hae]
        · obtain ⟨pd, hpd⟩ := hknown arg (List.mem_singleton.mpr rfl) hae
          refine Or.inr ⟨{ st with selected := mapUpd st.selected arg st.inclusion }, ?_⟩
          unfold processToken
          rw [if_neg hplus, if_neg hminus, hs, resolveRangeParts_ok_char h]
          simp only [List.map_cons, List.map_nil, if_neg hae, hpd]
          rw [if_neg (by simp)]
      · rw [hs] at h
        have hknown := firstUnknownName_none_known h
        by_cases hxe : x = []
        · by_cases hye : y = []
          · refine Or.inr ⟨st, ?_⟩
            unfold processToken
            rw [if_neg hplus, if_neg hminus, hs, resolveRangeParts_ok_char h]
            simp [hxe, hye]
          · obtain ⟨pdT, hpdT⟩ := hknown y (by simp) hye
            have hpt : processToken pi fuel st arg =
                (applyToSubtree (getRequired pi) fuel [pdT.PackageName]).map (fun visited =>
                  .ok { st with selected :=
                    visited.foldl (fun m n => mapUpd m n st.inclusion) st.selected }) := by
              unfold processToken
              rw [if_neg hplus, if_neg hminus, hs, resolveRangeParts_ok_char h]
              simp only [List.map_cons, List.map_nil, if_pos hxe, if_neg hye, hpdT]
              rw [if_neg (by simp)]
            cases hw : applyToSubtree (getRequired pi) fuel [pdT.PackageName] with
            | none => rw [hpt, hw]; exact Or.inl rfl
            | some visited => rw [hpt, hw]; exact Or.inr ⟨_, rfl⟩
        · by_cases hye : y = []
          · obtain ⟨pdF, hpdF⟩ := hknown x (by simp) hxe
            have hpt : processToken pi fuel st arg =
                (applyToSubtree (getDependent pi) fuel [pdF.PackageName]).map (fun visited =>
                  .ok { st with selected :=
                    visited.foldl (fun m n => mapUpd m n st.inclusion) st.selected }) := by
              unfold processToken
              rw [if_neg hplus, if_neg hminus, hs, resolveRangeParts_ok_char h]
              simp only [List.map_cons, List.map_nil, if_neg hxe, if_pos hye, hpdF]
              rw [if_neg (by simp)]
            cases hw : applyToSubtree (getDependent pi) fuel [pdF.PackageName] with
            | none => rw [hpt, hw]; exact Or.inl rfl
            | some visited => rw [hpt, hw]; exact Or.inr ⟨_, rfl⟩
          · obtain ⟨pdF, hpdF⟩ := hknown x (by simp) hxe
            obtain ⟨pdT, hpdT⟩ := hknown y (by simp) hye
            cases hw1 : applyToSubtree (getRequired pi) fuel [pdT.PackageName] with
            | none =>
              refine Or.inl ?_
              unfold processToken
              rw [if_neg hplus, if_neg hminus, hs, resolveRangeParts_ok_char h]
              simp only [List.map_cons, List.map_nil, if_neg hxe, if_neg hye, hpdF, hpdT]
              rw [if_neg (by simp), hw1]
            | some markVisited =>
              cases hw2 : applyToSubtree (getDependent pi) fuel [pdF.PackageName] with
              | none =>
                refine Or.inl ?_
                unfold processToken
                rw [if_neg hplus, if_neg hminus, hs, resolveRangeParts_ok_char h]
                simp only [List.map_cons, List.map_nil, if_neg hxe, if_neg hye, hpdF, hpdT]
                rw [if_neg (by simp), hw1, hw2]
              | some selVisited =>
                refine Or.inr ⟨{ st with
                  mark := st.mark + 1,
                  marked := markVisited.foldl (fun m n => mapUpd m n (st.mark + 1)) st.marked,
                  selected := selVisited.foldl (fun m n =>
                    if mapGet (markVisited.foldl
                        (fun m' n' => mapUpd m' n' (st.mark + 1)) st.marked)
                        n 0 = st.mark + 1 then
                      mapUpd m n st.inclusion
                    else m) st.selected }, ?_⟩
                unfold processToken
                rw [if_neg hplus, if_neg hminus, hs, resolveRangeParts_ok_char h]
                simp only [List.map_cons, List.map_nil, if_neg hxe, if_neg hye, hpdF, hpdT]
                rw [if_neg (by simp), hw1, hw2]

theorem processToken_ok_of_known (pi : packageIndex) (rank : Str → Nat) (N : Nat)
    (hnodup : nodupNames pi) (hclosed : edgesClosed pi) (hinv : edgesInverse pi)
    (hrank : ∀ a b, b ∈ getDependent pi a → rank a < rank b) (hN : ∀ v, rank v < N)
    (st : selState) (arg : Str) (h : firstUnknownInToken pi arg = none) :
    ∃ st', processToken pi (selFuel pi N) st arg = some (.ok st') := by
  rcases processToken_known_cases pi (selFuel pi N) st arg h with hnone | hok
  · exfalso
    by_cases hplus : arg = str "+"
    · have hpt : processToken pi (selFuel pi N) st arg =
          some (.ok { st with inclusion := true }) := by
        unfold processToken; rw [if_pos hplus]
      rw [hpt] at hnone
      simp at hnone
    · by_cases hminus : arg = str "-"
      · have hpt : processToken pi (selFuel pi N) st arg =
            some (.ok { st with inclusion := false }) := by
          unfold processToken; rw [if_neg hplus, if_pos hminus]
        rw [hpt] at hnone
        simp at hnone
      · unfold firstUnknownInToken at h
        rw [if_neg (show ¬(arg = str "+" ∨ arg = str "-") by
          push_neg; exact ⟨hplus, hminus⟩)] at h
        rcases splitN2_shape arg with hs | ⟨x, y, hs⟩
        · rw [hs] at h
          have hknown := firstUnknownName_none_known h
          by_cases hae : arg = []
          · have hpt : processToken pi (selFuel pi N) st arg = some (.ok st) := by
              unfold processToken
              rw [if_neg hplus, if_neg hminus, hs, resolveRangeParts_ok_char h]
              simp [hae]
            rw [hpt] at hnone
            simp at hnone
          · obtain ⟨pd, hpd⟩ := hknown arg (List.mem_singleton.mpr rfl) hae
            have hpt : processToken pi (selFuel pi N) st arg =
                some (.ok { st with selected := mapUpd st.selected arg st.inclusion }) := by
              unfold processToken
              rw [if_neg hplus, if_neg hminus, hs, resolveRangeParts_ok_char h]
              simp only [List.map_cons, List.map_nil, if_neg hae, hpd]
              rw [if_neg (by simp)]
            rw [hpt] at hnone
            simp at hnone
        · rw [hs] at h
          have hknown := firstUnknownName_none_known h
          by_cases hxe : x = []
          · by_cases hye : y = []
            · have hpt : processToken pi (selFuel pi N) st arg = some (.ok st) := by
                unfold processToken
                rw [if_neg hplus, if_neg hminus, hs, resolveRangeParts_ok_char h]
                simp [hxe, hye]
              rw [hpt] at hnone
              simp at hnone
            · obtain ⟨pdT, hpdT⟩ := hknown y (by simp) hye
              obtain ⟨markVisited, hw⟩ := Option.isSome_iff_exists.mp
                (reqWalk_total hnodup hclosed hinv rank N hrank hN
                  (getPackageByName_mem hpdT).1)
              have hpt : processToken pi (selFuel pi N) st arg =
                  some (.ok { st with
                    selected := markVisited.foldl
                      (fun m n => mapUpd m n st.inclusion) st.selected }) := by
                unfold processToken
                rw [if_neg hplus, if_neg hminus, hs, resolveRangeParts_ok_char h]
                simp only [List.map_cons, List.map_nil, if_pos hxe, if_neg hye, hpdT]
                rw [if_neg (by simp), hw]
                rfl
              rw [hpt] at hnone
              simp at hnone
          · by_cases hye : y = []
            · obtain ⟨pdF, hpdF⟩ := hknown x (by simp) hxe
              obtain ⟨selVisited, hw⟩ := Option.isSome_iff_exists.mp
                (depWalk_total rank N hrank hN (getPackageByName_mem hpdF).1)
              have hpt : processToken pi (selFuel pi N) st arg =
                  some (.ok { st with
                    selected := selVisited.foldl
                      (fun m n => mapUpd m n st.inclusion) st.selected }) := by
                unfold processToken
                rw [if_neg hplus, if_neg hminus, hs, resolveRangeParts_ok_char h]
                simp only [List.map_cons, List.map_nil, if_neg hxe, if_pos hye, hpdF]
                rw [if_neg (by simp), hw]
                rfl
              rw [hpt] at hnone
              simp at hnone
            · obtain ⟨pdF, hpdF⟩ := hknown x (by simp) hxe
              obtain ⟨pdT, hpdT⟩ := hknown y (by simp) hye
              obtain ⟨markVisited, hw1⟩ := Option.isSome_iff_exists.mp
                (reqWalk_total hnodup hclosed hinv rank N hrank hN
                  (getPackageByName_mem hpdT).1)
              obtain ⟨selVisited, hw2⟩ := Option.isSome_iff_exists.mp
                (depWalk_total rank N hrank hN (getPackageByName_mem hpdF).1)
              have hpt : processToken pi (selFuel pi N) st arg = some (.ok { st with
                  mark := st.mark + 1,
                  marked := markVisited.foldl (fun m n => mapUpd m n (st.mark + 1)) st.marked,
                  selected := selVisited.foldl (fun m n =>
                    if mapGet (markVisited.foldl
                        (fun m' n' => mapUpd m' n' (st.mark + 1)) st.marked)
                        n 0 = st.mark + 1 then
                      mapUpd m n st.inclusion
                    else m) st.selected }) := by
                unfold processToken
                rw [if_neg hplus, if_neg hminus, hs, resolveRangeParts_ok_char h]
                simp only [List.map_cons, List.map_nil, if_neg hxe, if_neg hye, hpdF, hpdT]
                rw [if_neg (by simp), hw1, hw2]
              rw [hpt] at hnone
              simp at hnone
  · exact hok

theorem resolveTokens_no_error (pi : packageIndex) (fuel : Nat) (args : List Str)
    (h : firstUnknown pi args = none) :
    ∀ (st : selState) (e : Str), resolveTokens pi fuel st args ≠ some (.error e) := by
  induction args with
  | nil => intro st e; simp [resolveTokens]
  | cons a rest ih =>
    intro st e heq
    unfold firstUnknown at h
    cases ht : firstUnknownInToken pi a with
    | some n => rw [ht] at h; simp at h
    | none =>
      rw [ht] at h
      unfold resolveTokens at heq
      rcases processToken_known_cases pi fuel st a ht with hnone | ⟨st', hok⟩
      · rw [hnone] at heq; simp at heq
      · rw [hok] at heq
        exact ih h st' e heq

theorem resolveTokens_error_of_unknown (pi : packageIndex) (rank : Str → Nat) (N : Nat)
    (hnodup : nodupNames pi) (hclosed : edgesClosed pi) (hinv : edgesInverse pi)
    (hrank : ∀ a b, b ∈ getDependent pi a → rank a < rank b) (hN : ∀ v, rank v < N)
    (args : List Str) (n : Str) (h : firstUnknown pi args = some n) :
    ∀ st : selState,
      resolveTokens pi (selFuel pi N) st args = some (.error (unknownPackageMsg n)) := by
  induction args with
  | nil => simp [firstUnknown] at h
  | cons a rest ih =>
    intro st
    unfold firstUnknown at h
    unfold resolveTokens
    cases ht : firstUnknownInToken pi a with
    | some m =>
      rw [ht] at h
      simp only [Option.some.injEq] at h
      subst h
      rw [processToken_error_of_unknown pi _ st a m ht]
    | none =>
      rw [ht] at h
      obtain ⟨st', hok⟩ := processToken_ok_of_known pi rank N hnodup hclosed hinv hrank hN st a ht
      rw [hok]
      exact ih h st'

/-- C3: resolution fails with the error "no such package: NAME" exactly
when some token carries a nonempty side that names no package of the
index (scanning tokens left to right and the two sides of a token in
order); when every name mentioned by the tokens resolves, no such
error is ever produced, whatever the fuel.  The error direction needs
the acyclicity hypotheses only so that the closure walks of the
earlier, well-formed tokens terminate. -/
theorem C3_unknown_package_error
    (pi : packageIndex) (args : List Str) (rank : Str → Nat) (N : Nat)
    (hnodup : nodupNames pi) (hclosed : edgesClosed pi) (hinv : edgesInverse pi)
    (hrank : ∀ a b, b ∈ getDependent pi a → rank a < rank b) (hN : ∀ v, rank v < N) :
    (firstUnknown pi args = none →
      ∀ (fuel : Nat) (e : Str),
        packageRangesToFlatSelection pi args fuel ≠ some (.error e)) ∧
    (∀ n, firstUnknown pi args = some n →
      ∃ fuel, packageRangesToFlatSelection pi args fuel =
        some (.error (unknownPackageMsg n))) := by
  constructor
  · intro h fuel e heq
    unfold packageRangesToFlatSelection at heq
    rw [Option.map_eq_some'] at heq
    obtain ⟨r, hr, hmap⟩ := heq
    cases r with
    | error e' =>
      simp only [Except.map, Except.error.injEq] at hmap
      exact resolveTokens_no_error pi fuel args h initialSelState e' hr
    | ok st => simp [Except.map] at hmap
  · intro n h
    refine ⟨selFuel pi N, ?_⟩
    unfold packageRangesToFlatSelection
    rw [resolveTokens_error_of_unknown pi rank N hnodup hclosed hinv hrank hN args n h
      initialSelState]
    rfl

/-- Witness for C3: on the example index, the token list
`["A", "Zed:C"]` mentions the unknown name `Zed` and fails with
"no such package: Zed"; the list `["A:C"]` mentions only known names
and never produces an unknown-package error. -/
theorem C3_witness :
    firstUnknown piABC [str "A", str "Zed:C"] = some (str "Zed") ∧
    firstUnknown piABC [str "A:C"] = none ∧
    ((firstUnknown piABC [str "A", str "Zed:C"] = none →
      ∀ (fuel : Nat) (e : Str),
        packageRangesToFlatSelection piABC [str "A", str "Zed:C"] fuel ≠ some (.error e)) ∧
    (∀ n, firstUnknown piABC [str "A", str "Zed:C"] = some n →
      ∃ fuel, packageRangesToFlatSelection piABC [str "A", str "Zed:C"] fuel =
        some (.error (unknownPackageMsg n)))) ∧
    ((firstUnknown piABC [str "A:C"] = none →
      ∀ (fuel : Nat) (e : Str),
        packageRangesToFlatSelection piABC [str "A:C"] fuel ≠ some (.error e)) ∧
    (∀ n, firstUnknown piABC [str "A:C"] = some n →
      ∃ fuel, packageRangesToFlatSelection piABC [str "A:C"] fuel =
        some (.error (unknownPackageMsg n)))) :=
  ⟨by rfl, by rfl,
    C3_unknown_package_error piABC [str "A", str "Zed:C"] rankABC 3
      (by unfold nodupNames; decide) (by unfold edgesClosed; decide)
      (by unfold edgesInverse; decide) rankABC_topo rankABC_bound,
    C3_unknown_package_error piABC [str "A:C"] rankABC 3
      (by unfold nodupNames; decide) (by unfold edgesClosed; decide)
      (by unfold edgesInverse; decide) rankABC_topo rankABC_bound⟩

/-! ## Pathname template expansion

Model of `expandPathnameTemplate` (template.go).  A template parameter
value is a Go `interface{}`: a string, a `[]string`, or anything else
(whose only observable use here is its `fmt.Sprint` rendering, carried
as a string). -/

inductive templateValue where
  | str (s : Str)
  | list (l : List Str)
  | other (render : Str)
deriving DecidableEq, Repr

/-- Go's `templateParams` map; modelled as an association list whose
order stands for the map's iteration order. -/
abbrev templateParams := List (Str × templateValue)

/-- The `"{" + name + "}"` placeholder pattern of `subst`. -/
def placeholder (name : Str) : Str := '{' :: (name ++ ['}'])

/-- The `pathnameTemplateText`/`pathnameTemplateMultiplier` chain: a
text segment either ends the chain or is followed by a multiplier
(the list-valued parameter that was expanded) and its continuation. -/
inductive pathnameTemplateText where
  | last (text : Str)
  | multiplier (text : Str) (paramName : Str) (paramValues : List Str)
      (continuation : pathnameTemplateText)
deriving DecidableEq, Repr

def chainWeight : pathnameTemplateText → Nat
  | .last t => t.length
  | .multiplier t _ _ cont => t.length + 1 + chainWeight cont

theorem isPrefixOf_decomp {p s : Str} (h : p.isPrefixOf s = true) :
    s = p ++ s.drop p.length := by
  induction p generalizing s with
  | nil => simp
  | cons c p' ih =>
    cases s with
    | nil => simp [List.isPrefixOf] at h
    | cons d s' =>
      simp only [List.isPrefixOf, Bool.and_eq_true, beq_iff_eq] at h
      obtain ⟨rfl, h2⟩ := h
      simp only [List.cons_append, List.length_cons, List.drop_succ_cons]
      rw [← ih h2]

theorem splitFirst_decomp {pat s pre suf : Str} (h : splitFirst pat s = some (pre, suf)) :
    s = pre ++ pat ++ suf := by
  induction s generalizing pre suf with
  | nil =>
    unfold splitFirst at h
    by_cases hp : pat = []
    · rw [if_pos hp] at h
      simp only [Option.some.injEq, Prod.mk.injEq] at h
      rw [hp, ← h.1, ← h.2]
      rfl
    · rw [if_neg hp] at h
      simp at h
  | cons c rest ih =>
    unfold splitFirst at h
    by_cases hp : pat.isPrefixOf (c :: rest) = true
    · rw [if_pos hp] at h
      simp only [Option.some.injEq, Prod.mk.injEq] at h
      rw [← h.1, ← h.2]
      simpa using isPrefixOf_decomp hp
    · rw [if_neg hp] at h
      cases hs : splitFirst pat rest with
      | none => rw [hs] at h; simp at h
      | some p =>
        obtain ⟨p', s'⟩ := p
        rw [hs] at h
        simp only [Option.some.injEq, Prod.mk.injEq] at h
        rw [← h.1, ← h.2]
        simpa using ih hs

theorem splitFirst_suffix_shorter {name t pre suf : Str}
    (h : splitFirst (placeholder name) t = some (pre, suf)) : suf.length < t.length := by
  have hd := splitFirst_decomp h
  have : t.length = pre.length + (placeholder name).length + suf.length := by
    rw [hd]; simp; omega
  have hpl : 1 ≤ (placeholder name).length := by simp [placeholder]
  omega

/-- Fuel-based worker for `substChain`; the fuel argument only makes
the recursion structural, `substChain` instantiates it with the chain
weight plus one, which always suffices because every recursive call
strictly decreases the weight. -/
def substChainF (name : Str) (value : templateValue) :
    Nat → pathnameTemplateText → pathnameTemplateText × Nat
  | 0, chain => (chain, 1)
  | fuel + 1, .last t =>
    match value with
    | .str s => (.last (replaceAll (placeholder name) s t), 1)
    | .other r => (.last (replaceAll (placeholder name) r t), 1)
    | .list vs =>
      match splitFirst (placeholder name) t with
      | none => (.last t, 1)
      | some (pre, suf) =>
        ((.multiplier pre name vs (substChainF name (.list vs) fuel (.last suf)).1),
          vs.length * (substChainF name (.list vs) fuel (.last suf)).2)
  | fuel + 1, .multiplier t pn pv cont =>
    match value with
    | .str s =>
      ((.multiplier (replaceAll (placeholder name) s t) pn pv
        (substChainF name (.str s) fuel cont).1),
        (substChainF name (.str s) fuel cont).2)
    | .other r =>
      ((.multiplier (replaceAll (placeholder name) r t) pn pv
        (substChainF name (.other r) fuel cont).1),
        (substChainF name (.other r) fuel cont).2)
    | .list vs =>
      match splitFirst (placeholder name) t with
      | none =>
        ((.multiplier t pn pv (substChainF name (.list vs) fuel cont).1),
          (substChainF name (.list vs) fuel cont).2)
      | some (pre, suf) =>
        ((.multiplier pre name vs
            (substChainF name (.list vs) fuel (.multiplier suf pn pv cont)).1),
          vs.length * (substChainF name (.list vs) fuel (.multiplier suf pn pv cont)).2)

/-- One `subst` pass of a single (name, value) pair over the whole
chain.  `expandPathnameTemplate` calls `root.subst(name, value)` and
then `n.continuation.subst(name, value)` for every chain node `n`
(including nodes just inserted by the very same pass), so a scalar
value textually replaces every occurrence in every segment, while a
list value splits each segment at each occurrence, left to right; this
function performs that whole pass, returning the new chain together
with the product of the `subst` return values (the factor by which the
pass multiplies `resultSize`). -/
def substChain (name : Str) (value : templateValue)
    (chain : pathnameTemplateText) : pathnameTemplateText × Nat :=
  substChainF name value (chainWeight chain + 1) chain

theorem substChainF_adequate (name : Str) (value : templateValue) :
    ∀ (f : Nat) (chain : pathnameTemplateText), chainWeight chain < f →
      substChainF name value f chain = substChain name value chain := by
  intro f
  induction f using Nat.strong_induction_on with
  | _ f ih =>
    intro chain hw
    match f, chain with
    | 0, chain => omega
    | g + 1, .last t =>
      unfold substChain
      cases value with
      | str s => rfl
      | other r => rfl
      | list vs =>
        simp only [chainWeight, substChainF] at hw ⊢
        cases hsf : splitFirst (placeholder name) t with
        | none => rfl
        | some p =>
          obtain ⟨pre, suf⟩ := p
          have hsuf := splitFirst_suffix_shorter hsf
          dsimp only
          rw [ih g (by omega) (.last suf) (by simp only [chainWeight]; omega),
            ih t.length (by omega) (.last suf) (by simp only [chainWeight]; omega)]
    | g + 1, .multiplier t pn pv cont =>
      unfold substChain
      simp only [chainWeight, substChainF] at hw ⊢
      cases value with
      | str s =>
        dsimp only
        rw [ih g (by omega) cont (by omega),
          ih (t.length + 1 + chainWeight cont) (by omega) cont (by omega)]
      | other r =>
        dsimp only
        rw [ih g (by omega) cont (by omega),
          ih (t.length + 1 + chainWeight cont) (by omega) cont (by omega)]
      | list vs =>
        cases hsf : splitFirst (placeholder name) t with
        | none =>
          dsimp only
          rw [ih g (by omega) cont (by omega),
            ih (t.length + 1 + chainWeight cont) (by omega) cont (by omega)]
        | some p =>
          obtain ⟨pre, suf⟩ := p
          have hsuf := splitFirst_suffix_shorter hsf
          dsimp only
          rw [ih g (by omega) (.multiplier suf pn pv cont)
              (by simp only [chainWeight]; omega),
            ih (t.length + 1 + chainWeight cont) (by omega) (.multiplier suf pn pv cont)
              (by simp only [chainWeight]; omega)]

/-- One iteration of the first loop of `expandPathnameTemplate`:
substitute one parameter into the chain and multiply the accumulated
`resultSize` by the factor the substitution reports. -/
def substStep (acc : pathnameTemplateText × Nat) (nv : Str × templateValue) :
    pathnameTemplateText × Nat :=
  ((substChain nv.1 nv.2 acc.1).1, acc.2 * (substChain nv.1 nv.2 acc.1).2)

/-- The first loop of `expandPathnameTemplate`: substitute every
parameter (in map iteration order, modelled by the list order) into
the chain, accumulating `resultSize`. -/
def buildChain (pathname : Str) (params : templateParams) :
    pathnameTemplateText × Nat :=
  params.foldl substStep (.last pathname, 1)

structure fileParams where
  filename : Str
  params : templateParams
deriving DecidableEq, Repr

def headText : pathnameTemplateText → Str
  | .last t => t
  | .multiplier t _ _ _ => t

/-- The innermost filling loops of `expandPathnameTemplate` for one
multiplier node: Go iterates `i` over the whole result, cycling the
value index `j` with runs of length `sliceSize`, so entry `i` receives
value number `(i / sliceSize) % numberOfValues`; this function applies
exactly that assignment to every entry, carrying the running index. -/
def fillSegment (name : Str) (vs : List Str) (ct : Str) (s : Nat) :
    Nat → List fileParams → List fileParams
  | _, [] => []
  | i, fp :: rest =>
    { filename := fp.filename ++ vs.getD (i / s % vs.length) [] ++ ct,
      params := mapUpd fp.params name (.str (vs.getD (i / s % vs.length) [])) } ::
      fillSegment name vs ct s (i + 1) rest

/-- The second loop of `expandPathnameTemplate`: walk the multiplier
nodes in chain order, each time appending one value plus the node's
continuation text to every result entry and rebinding the node's
parameter, with `sliceSize` multiplied as in the source. -/
def fillChain : pathnameTemplateText → Nat → List fileParams → List fileParams
  | .last _, _, result => result
  | .multiplier _ name vs cont, s, result =>
    fillChain cont (s * vs.length) (fillSegment name vs (headText cont) s 0 result)

/-- Model of `expandPathnameTemplate` (template.go): build the chain
and the result count, allocate the result entries with the root text
and a copy of the parameter mapping each, return early on a zero
count, and otherwise fill in the multiplier values. -/
def expandPathnameTemplate (pathname : Str) (params : templateParams) :
    List fileParams :=
  if (buildChain pathname params).2 = 0 then
    List.replicate (buildChain pathname params).2
      ⟨headText (buildChain pathname params).1, params⟩
  else
    fillChain (buildChain pathname params).1 1
      (List.replicate (buildChain pathname params).2
        ⟨headText (buildChain pathname params).1, params⟩)

/-! ## Occurrence lemmas for placeholder patterns

Placeholder names are "brace-free" (no `{`/`}`), which is what makes
distinct placeholders non-overlapping in a pathname template. -/

abbrev braceFree (s : Str) : Prop := '{' ∉ s ∧ '}' ∉ s

/-- `pat` occurs as a contiguous substring of `s`. -/
def containsPat (pat s : Str) : Prop := ∃ pre suf, s = pre ++ pat ++ suf

theorem containsPat_cons {pat s : Str} (c : Char) (h : containsPat pat s) :
    containsPat pat (c :: s) := by
  obtain ⟨pre, suf, rfl⟩ := h
  exact ⟨c :: pre, suf, rfl⟩

theorem containsPat_append {pat s : Str} (u : Str) (h : containsPat pat s) :
    containsPat pat (u ++ s) := by
  obtain ⟨pre, suf, rfl⟩ := h
  exact ⟨u ++ pre, suf, by simp⟩

theorem not_contains_of_nolbrace {s cs : Str} (hs : '{' ∉ s) :
    ¬ containsPat ('{' :: cs) s := by
  rintro ⟨pre, suf, rfl⟩
  exact hs (List.mem_append.mpr (Or.inl (List.mem_append.mpr
    (Or.inr (List.mem_cons_self _ _)))))

/-- Two placeholders starting at the same position have the same name
(names contain no `}`). -/
theorem name_eq_of_append_eq {a c s s' : Str} (ha : '}' ∉ a) (hc : '}' ∉ c)
    (h : a ++ '}' :: s = c ++ '}' :: s') : a = c := by
  induction a generalizing c with
  | nil =>
    cases c with
    | nil => rfl
    | cons d c' =>
      simp only [List.nil_append, List.cons_append, List.cons.injEq] at h
      exfalso
      apply hc
      rw [h.1]
      exact List.mem_cons_self _ _
  | cons x a' ih =>
    cases c with
    | nil =>
      simp only [List.nil_append, List.cons_append, List.cons.injEq] at h
      exfalso
      apply ha
      rw [← h.1]
      exact List.mem_cons_self _ _
    | cons y c' =>
      simp only [List.cons_append, List.cons.injEq] at h
      have ha' : '}' ∉ a' := fun hm => ha (List.mem_cons_of_mem _ hm)
      have hc' : '}' ∉ c' := fun hm => hc (List.mem_cons_of_mem _ hm)
      rw [h.1, ih ha' hc' h.2]

theorem placeholder_append (a X : Str) :
    placeholder a ++ X = '{' :: (a ++ '}' :: X) := by
  simp [placeholder]

/-- An occurrence of a `{`-headed pattern cannot start inside a
`{`-free text `u`: it lies entirely past it. -/
theorem occurrence_past_nolbrace :
    ∀ {u : Str}, '{' ∉ u →
    ∀ {rest pre t' : Str}, pre ++ '{' :: rest = u ++ t' →
      ∃ pre₂, pre = u ++ pre₂ ∧ t' = pre₂ ++ '{' :: rest := by
  intro u
  induction u with
  | nil =>
    intro _ rest pre t' h
    exact ⟨pre, by simp, by simpa using h.symm⟩
  | cons x u' ih =>
    intro hu rest pre t' h
    have hx : x ≠ '{' := fun hx => hu (by rw [hx]; exact List.mem_cons_self _ _)
    have hu' : '{' ∉ u' := fun hm => hu (List.mem_cons_of_mem _ hm)
    cases pre with
    | nil =>
      simp only [List.nil_append, List.cons_append, List.cons.injEq] at h
      exact absurd h.1.symm hx
    | cons p pre' =>
      simp only [List.cons_append, List.cons.injEq] at h
      obtain ⟨p₂, h1, h2⟩ := ih hu' h.2
      refine ⟨p₂, ?_, h2⟩
      rw [h.1, h1]
      rfl

/-- If a text decomposes both as `pre ++ {c} ++ suf` and as an
occurrence of `{a}` (distinct brace-free names), the `{a}` occurrence
lies wholly inside `pre` or wholly inside `suf`. -/
theorem contains_split_parts {a c : Str} (ha : braceFree a) (hc : braceFree c)
    (hne : a ≠ c) :
    ∀ (pre suf pre₁ suf₁ : Str),
      pre ++ placeholder c ++ suf = pre₁ ++ placeholder a ++ suf₁ →
      containsPat (placeholder a) pre ∨ containsPat (placeholder a) suf := by
  intro pre
  induction pre with
  | nil =>
    intro suf pre₁ suf₁ h
    rw [List.nil_append, List.append_assoc, placeholder_append] at h
    cases pre₁ with
    | nil =>
      exfalso
      rw [List.nil_append, placeholder_append] at h
      simp only [List.cons.injEq, true_and] at h
      exact hne (name_eq_of_append_eq hc.2 ha.2 h).symm
    | cons q pre₁' =>
      rw [placeholder_append] at h
      simp only [List.cons_append, List.cons.injEq] at h
      obtain ⟨pre₂, hp, ht⟩ := occurrence_past_nolbrace hc.1 h.2.symm
      cases pre₂ with
      | nil => simp at ht
      | cons q₂ pre₃ =>
        simp only [List.cons_append, List.cons.injEq] at ht
        refine Or.inr ⟨pre₃, suf₁, ?_⟩
        rw [ht.2, List.append_assoc, placeholder_append]
  | cons p pre' ih =>
    intro suf pre₁ suf₁ h
    cases pre₁ with
    | nil =>
      rw [List.nil_append, List.append_assoc, placeholder_append, placeholder_append] at h
      simp only [List.cons_append, List.cons.injEq] at h
      obtain ⟨pre₂, hpp, ht⟩ := occurrence_past_nolbrace ha.1 h.2
      cases pre₂ with
      | nil => simp at ht
      | cons q₂ pre₃ =>
        simp only [List.cons_append, List.cons.injEq] at ht
        refine Or.inl ⟨[], pre₃, ?_⟩
        rw [List.nil_append, placeholder_append, h.1, hpp, ← ht.1]
    | cons q pre₁' =>
      simp only [List.cons_append, List.cons.injEq] at h
      rcases ih suf pre₁' suf₁ h.2 with hl | hr
      · exact Or.inl (containsPat_cons p hl)
      · exact Or.inr hr

theorem isPrefixOf_self_append (p t : Str) : p.isPrefixOf (p ++ t) = true := by
  induction p with
  | nil => simp [List.isPrefixOf]
  | cons c p' ih => simp [List.isPrefixOf, ih]

theorem splitFirst_isSome_of_contains {p s : Str} (h : containsPat p s) :
    (splitFirst p s).isSome := by
  obtain ⟨pre, suf, rfl⟩ := h
  induction pre with
  | nil =>
    cases hps : p ++ suf with
    | nil =>
      obtain ⟨rfl, rfl⟩ := List.append_eq_nil.mp hps
      simp [splitFirst]
    | cons c rest =>
      rw [List.nil_append, hps]
      unfold splitFirst
      rw [if_pos (by rw [← hps]; exact isPrefixOf_self_append p suf)]
      simp
  | cons c pre' ih =>
    simp only [List.cons_append]
    unfold splitFirst
    by_cases hp : p.isPrefixOf (c :: (pre' ++ p ++ suf)) = true
    · rw [if_pos (by simpa using hp)]
      simp
    · rw [if_neg (by simpa using hp)]
      have := ih
      cases hsf : splitFirst p (pre' ++ p ++ suf) with
      | none => rw [hsf] at this; simp at this
      | some q =>
        obtain ⟨q1, q2⟩ := q
        simp

theorem splitFirst_none_of_not_contains {p s : Str} (h : ¬ containsPat p s) :
    splitFirst p s = none := by
  cases hsf : splitFirst p s with
  | none => rfl
  | some q =>
    obtain ⟨pre, suf⟩ := q
    exact absurd ⟨pre, suf, splitFirst_decomp hsf⟩ h

theorem replaceAll_cons_of_ne {pat v : Str} {c : Char} {s : Str}
    (h : pat.isPrefixOf (c :: s) = false) :
    replaceAll pat v (c :: s) = c :: replaceAll pat v s := by
  show replaceAllF pat v (c :: s).length (c :: s) = _
  simp only [List.length_cons, replaceAllF]
  rw [if_neg (by
    rintro ⟨-, hpre⟩
    rw [h] at hpre
    exact Bool.false_ne_true hpre)]
  rw [replaceAllF_adequate pat v s.length s le_rfl]

theorem replaceAll_cons_match {pat v : Str} {c : Char} {s : Str} (hne : pat ≠ [])
    (h : pat.isPrefixOf (c :: s) = true) :
    replaceAll pat v (c :: s) = v ++ replaceAll pat v (s.drop (pat.length - 1)) := by
  show replaceAllF pat v (c :: s).length (c :: s) = _
  simp only [List.length_cons, replaceAllF]
  rw [if_pos ⟨hne, h⟩]
  rw [replaceAllF_adequate pat v s.length _ (by simp only [List.length_drop]; omega)]

/-- `strings.Replace` passes a `{`-free text through unchanged when
the pattern starts with `{`. -/
theorem replaceAll_nolbrace_append {cs v : Str} :
    ∀ {u : Str}, '{' ∉ u → ∀ (w : Str),
      replaceAll ('{' :: cs) v (u ++ w) = u ++ replaceAll ('{' :: cs) v w := by
  intro u
  induction u with
  | nil => intro _ w; simp
  | cons x u' ih =>
    intro hu w
    have hx : x ≠ '{' := fun hx => hu (by rw [hx]; exact List.mem_cons_self _ _)
    have hu' : '{' ∉ u' := fun hm => hu (List.mem_cons_of_mem _ hm)
    rw [List.cons_append, replaceAll_cons_of_ne (by
      simp only [List.isPrefixOf, Bool.and_eq_false_iff]
      left
      simp only [beq_eq_false_iff_ne, ne_eq]
      exact fun hcc => hx hcc.symm)]
    rw [ih hu' w, List.cons_append]

/-! ## Step equations for `substChain` -/

theorem substChainF_last_list (name : Str) (vs : List Str) (fuel : Nat) (t : Str) :
    substChainF name (.list vs) (fuel + 1) (.last t) =
      match splitFirst (placeholder name) t with
      | none => (.last t, 1)
      | some (pre, suf) =>
        ((.multiplier pre name vs (substChainF name (.list vs) fuel (.last suf)).1),
          vs.length * (substChainF name (.list vs) fuel (.last suf)).2) := rfl

theorem substChainF_mult_list (name : Str) (vs : List Str) (fuel : Nat) (t pn : Str)
    (pv : List Str) (cont : pathnameTemplateText) :
    substChainF name (.list vs) (fuel + 1) (.multiplier t pn pv cont) =
      match splitFirst (placeholder name) t with
      | none =>
        ((.multiplier t pn pv (substChainF name (.list vs) fuel cont).1),
          (substChainF name (.list vs) fuel cont).2)
      | some (pre, suf) =>
        ((.multiplier pre name vs
            (substChainF name (.list vs) fuel (.multiplier suf pn pv cont)).1),
          vs.length * (substChainF name (.list vs) fuel (.multiplier suf pn pv cont)).2) :=
  rfl

theorem substChain_last_str (name s t : Str) :
    substChain name (.str s) (.last t) =
      (.last (replaceAll (placeholder name) s t), 1) := rfl

theorem substChain_last_other (name r t : Str) :
    substChain name (.other r) (.last t) =
      (.last (replaceAll (placeholder name) r t), 1) := rfl

theorem substChain_last_list_none {name t : Str} (vs : List Str)
    (h : splitFirst (placeholder name) t = none) :
    substChain name (.list vs) (.last t) = (.last t, 1) := by
  unfold substChain
  rw [substChainF_last_list, h]

theorem substChain_last_list_some {name t pre suf : Str} (vs : List Str)
    (h : splitFirst (placeholder name) t = some (pre, suf)) :
    substChain name (.list vs) (.last t) =
      (.multiplier pre name vs (substChain name (.list vs) (.last suf)).1,
        vs.length * (substChain name (.list vs) (.last suf)).2) := by
  unfold substChain
  rw [substChainF_last_list, h]
  dsimp only
  rw [substChainF_adequate name (.list vs) (chainWeight (.last t)) (.last suf) (by
    simp only [chainWeight]
    exact splitFirst_suffix_shorter h)]
  rfl

theorem substChain_mult_str (name s t pn : Str) (pv : List Str)
    (cont : pathnameTemplateText) :
    substChain name (.str s) (.multiplier t pn pv cont) =
      (.multiplier (replaceAll (placeholder name) s t) pn pv
        (substChain name (.str s) cont).1,
        (substChain name (.str s) cont).2) := by
  unfold substChain
  rw [show substChainF name (.str s)
        (chainWeight (pathnameTemplateText.multiplier t pn pv cont) + 1)
        (.multiplier t pn pv cont) =
      ((.multiplier (replaceAll (placeholder name) s t) pn pv
        (substChainF name (.str s)
          (chainWeight (pathnameTemplateText.multiplier t pn pv cont)) cont).1),
        (substChainF name (.str s)
          (chainWeight (pathnameTemplateText.multiplier t pn pv cont)) cont).2) from rfl]
  rw [substChainF_adequate name (.str s)
    (chainWeight (pathnameTemplateText.multiplier t pn pv cont)) cont (by
      simp only [chainWeight]; omega)]
  rfl

theorem substChain_mult_other (name r t pn : Str) (pv : List Str)
    (cont : pathnameTemplateText) :
    substChain name (.other r) (.multiplier t pn pv cont) =
      (.multiplier (replaceAll (placeholder name) r t) pn pv
        (substChain name (.other r) cont).1,
        (substChain name (.other r) cont).2) := by
  unfold substChain
  rw [show substChainF name (.other r)
        (chainWeight (pathnameTemplateText.multiplier t pn pv cont) + 1)
        (.multiplier t pn pv cont) =
      ((.multiplier (replaceAll (placeholder name) r t) pn pv
        (substChainF name (.other r)
          (chainWeight (pathnameTemplateText.multiplier t pn pv cont)) cont).1),
        (substChainF name (.other r)
          (chainWeight (pathnameTemplateText.multiplier t pn pv cont)) cont).2) from rfl]
  rw [substChainF_adequate name (.other r)
    (chainWeight (pathnameTemplateText.multiplier t pn pv cont)) cont (by
      simp only [chainWeight]; omega)]
  rfl

theorem substChain_mult_list_none {name t : Str} (vs : List Str) {pn : Str}
    {pv : List Str} {cont : pathnameTemplateText}
    (h : splitFirst (placeholder name) t = none) :
    substChain name (.list vs) (.multiplier t pn pv cont) =
      (.multiplier t pn pv (substChain name (.list vs) cont).1,
        (substChain name (.list vs) cont).2) := by
  unfold substChain
  rw [substChainF_mult_list, h]
  dsimp only
  rw [substChainF_adequate name (.list vs)
    (chainWeight (pathnameTemplateText.multiplier t pn pv cont)) cont (by
      simp only [chainWeight]; omega)]
  rfl

theorem substChain_mult_list_some {name t pre suf : Str} (vs : List Str) {pn : Str}
    {pv : List Str} {cont : pathnameTemplateText}
    (h : splitFirst (placeholder name) t = some (pre, suf)) :
    substChain name (.list vs) (.multiplier t pn pv cont) =
      (.multiplier pre name vs
        (substChain name (.list vs) (.multiplier suf pn pv cont)).1,
        vs.length * (substChain name (.list vs) (.multiplier suf pn pv cont)).2) := by
  unfold substChain
  rw [substChainF_mult_list, h]
  dsimp only
  rw [substChainF_adequate name (.list vs)
    (chainWeight (pathnameTemplateText.multiplier t pn pv cont))
    (.multiplier suf pn pv cont) (by
      simp only [chainWeight]
      have := splitFirst_suffix_shorter h
      omega)]
  rfl

theorem not_containsPat_nil {a : Str} : ¬ containsPat (placeholder a) [] := by
  rintro ⟨pre, suf, h⟩
  rw [List.append_assoc, placeholder_append] at h
  exact absurd (List.append_eq_nil.mp h.symm).2 (by simp)

/-- `strings.Replace` of one placeholder by any value preserves an
occurrence of a different placeholder (brace-free names cannot
overlap). -/
theorem replaceAll_preserves_contains {a c : Str} (ha : braceFree a) (hc : braceFree c)
    (hne : a ≠ c) (v : Str) :
    ∀ (n : Nat) (t : Str), t.length ≤ n → containsPat (placeholder a) t →
      containsPat (placeholder a) (replaceAll (placeholder c) v t) := by
  intro n
  induction n with
  | zero =>
    intro t hlen hcont
    rw [List.length_eq_zero.mp (Nat.le_zero.mp hlen)] at hcont ⊢
    exact absurd hcont not_containsPat_nil
  | succ m ih =>
    intro t hlen hcont
    cases t with
    | nil => exact absurd hcont not_containsPat_nil
    | cons c₀ rest =>
      by_cases hm : (placeholder c).isPrefixOf (c₀ :: rest) = true
      · rw [replaceAll_cons_match (by simp [placeholder]) hm]
        have hdec := isPrefixOf_decomp hm
        have hdrop : (c₀ :: rest).drop (placeholder c).length =
            rest.drop ((placeholder c).length - 1) := by
          have : (placeholder c).length = (c ++ ['}']).length + 1 := by
            simp [placeholder]
          rw [this]
          simp
        rw [hdrop] at hdec
        obtain ⟨pre₁, suf₁, heq⟩ := hcont
        have hsplit := contains_split_parts ha hc hne []
          (rest.drop ((placeholder c).length - 1)) pre₁ suf₁ (by
            rw [List.nil_append, ← hdec]
            exact heq)
        rcases hsplit with hl | hr
        · exact absurd hl not_containsPat_nil
        · apply containsPat_append
          apply ih _ _ hr
          have := List.length_drop ((placeholder c).length - 1) rest
          simp only [List.length_cons] at hlen
          omega
      · rw [replaceAll_cons_of_ne (Bool.not_eq_true _ ▸ hm)]
        obtain ⟨pre₁, suf₁, heq⟩ := hcont
        cases pre₁ with
        | nil =>
          rw [List.nil_append, placeholder_append] at heq
          simp only [List.cons.injEq] at heq
          rw [heq.1, heq.2]
          have hnol : '{' ∉ a ++ ['}'] := by
            simp only [List.mem_append, List.mem_singleton]
            rintro (hin | hin)
            · exact ha.1 hin
            · cases hin
          have := @replaceAll_nolbrace_append (c ++ ['}']) v _ hnol suf₁
          rw [show a ++ '}' :: suf₁ = (a ++ ['}']) ++ suf₁ by simp] at heq ⊢
          rw [show placeholder c = '{' :: (c ++ ['}']) from rfl, this]
          refine ⟨[], replaceAll ('{' :: (c ++ ['}'])) v suf₁, ?_⟩
          rw [List.nil_append, List.append_assoc, placeholder_append]
          simp
        | cons p pre' =>
          simp only [List.cons_append, List.cons.injEq] at heq
          have hrest : containsPat (placeholder a) rest := by
            rw [heq.2]
            exact ⟨pre', suf₁, rfl⟩
          have hlen' : rest.length ≤ m := by
            simp only [List.length_cons] at hlen
            omega
          exact containsPat_cons c₀ (ih rest hlen' hrest)

/-! ## C6: empty list values collapse the expansion -/

/-- Some segment of the chain contains the pattern. -/
def chainContains (pat : Str) : pathnameTemplateText → Prop
  | .last t => containsPat pat t
  | .multiplier t _ _ cont => containsPat pat t ∨ chainContains pat cont

/-- Substituting any value for a different (brace-free) name preserves
a placeholder occurrence somewhere in the chain. -/
theorem substChain_preserves_contains {a c : Str} (ha : braceFree a) (hc : braceFree c)
    (hne : a ≠ c) (v : templateValue) :
    ∀ (n : Nat) (chain : pathnameTemplateText), chainWeight chain ≤ n →
      chainContains (placeholder a) chain →
      chainContains (placeholder a) (substChain c v chain).1 := by
  intro n
  induction n with
  | zero =>
    intro chain hw hcont
    cases chain with
    | last t =>
      have ht : t = [] := List.length_eq_zero.mp (Nat.le_zero.mp
        (by simpa [chainWeight] using hw))
      subst ht
      exact absurd hcont not_containsPat_nil
    | multiplier t pn pv cont =>
      simp only [chainWeight] at hw
      omega
  | succ m ih =>
    intro chain hw hcont
    cases chain with
    | last t =>
      cases v with
      | str s =>
        rw [substChain_last_str]
        exact replaceAll_preserves_contains ha hc hne s t.length t le_rfl hcont
      | other r =>
        rw [substChain_last_other]
        exact replaceAll_preserves_contains ha hc hne r t.length t le_rfl hcont
      | list vs =>
        cases hsf : splitFirst (placeholder c) t with
        | none =>
          rw [substChain_last_list_none vs hsf]
          exact hcont
        | some p =>
          obtain ⟨pre, suf⟩ := p
          rw [substChain_last_list_some vs hsf]
          have hdec := splitFirst_decomp hsf
          obtain ⟨pre₁, suf₁, heq⟩ := hcont
          rcases contains_split_parts ha hc hne pre suf pre₁ suf₁
              (by rw [← hdec]; exact heq) with hl | hr
          · exact Or.inl hl
          · refine Or.inr (ih (.last suf) ?_ hr)
            simp only [chainWeight] at hw ⊢
            have := splitFirst_suffix_shorter hsf
            omega
    | multiplier t pn pv cont =>
      cases v with
      | str s =>
        rw [substChain_mult_str]
        rcases hcont with hl | hr
        · exact Or.inl (replaceAll_preserves_contains ha hc hne s t.length t le_rfl hl)
        · refine Or.inr (ih cont ?_ hr)
          simp only [chainWeight] at hw
          omega
      | other r =>
        rw [substChain_mult_other]
        rcases hcont with hl | hr
        · exact Or.inl (replaceAll_preserves_contains ha hc hne r t.length t le_rfl hl)
        · refine Or.inr (ih cont ?_ hr)
          simp only [chainWeight] at hw
          omega
      | list vs =>
        cases hsf : splitFirst (placeholder c) t with
        | none =>
          rw [substChain_mult_list_none vs hsf]
          rcases hcont with hl | hr
          · exact Or.inl hl
          · refine Or.inr (ih cont ?_ hr)
            simp only [chainWeight] at hw
            omega
        | some p =>
          obtain ⟨pre, suf⟩ := p
          rw [substChain_mult_list_some vs hsf]
          have hdec := splitFirst_decomp hsf
          have hshort := splitFirst_suffix_shorter hsf
          rcases hcont with hl | hr
          · obtain ⟨pre₁, suf₁, heq⟩ := hl
            rcases contains_split_parts ha hc hne pre suf pre₁ suf₁
                (by rw [← hdec]; exact heq) with h1 | h2
            · exact Or.inl h1
            · refine Or.inr (ih (.multiplier suf pn pv cont) ?_ (Or.inl h2))
              simp only [chainWeight] at hw ⊢
              omega
          · refine Or.inr (ih (.multiplier suf pn pv cont) ?_ (Or.inr hr))
            simp only [chainWeight] at hw ⊢
            omega

/-- Substituting an empty list for a name occurring in the chain
multiplies the result count by zero. -/
theorem substChain_empty_list_zero {a : Str} :
    ∀ (chain : pathnameTemplateText), chainContains (placeholder a) chain →
      (substChain a (.list []) chain).2 = 0 := by
  intro chain
  induction chain with
  | last t =>
    intro hcont
    obtain ⟨q, hsf⟩ := Option.isSome_iff_exists.mp (splitFirst_isSome_of_contains hcont)
    obtain ⟨pre, suf⟩ := q
    rw [substChain_last_list_some [] hsf]
    simp
  | multiplier t pn pv cont ih =>
    intro hcont
    cases hsf : splitFirst (placeholder a) t with
    | some p =>
      obtain ⟨pre, suf⟩ := p
      rw [substChain_mult_list_some [] hsf]
      simp
    | none =>
      rw [substChain_mult_list_none [] hsf]
      rcases hcont with hl | hr
      · exact absurd (splitFirst_isSome_of_contains hl) (by rw [hsf]; simp)
      · exact ih hr

theorem foldl_substStep_zero :
    ∀ (params : templateParams) (chain : pathnameTemplateText),
      (params.foldl substStep (chain, 0)).2 = 0 := by
  intro params
  induction params with
  | nil => intro chain; rfl
  | cons nv rest ih =>
    intro chain
    simp only [List.foldl_cons]
    rw [show substStep (chain, 0) nv = ((substChain nv.1 nv.2 chain).1, 0) from by
      simp [substStep]]
    exact ih _

theorem buildChain_count_zero {a : Str} (ha : braceFree a) :
    ∀ (params : templateParams) (chain : pathnameTemplateText) (k : Nat),
      (params.map Prod.fst).Nodup →
      (∀ p ∈ params, braceFree p.1) →
      (a, templateValue.list []) ∈ params →
      chainContains (placeholder a) chain →
      (params.foldl substStep (chain, k)).2 = 0 := by
  intro params
  induction params with
  | nil =>
    intro chain k _ _ hmem _
    simp at hmem
  | cons nv rest ih =>
    intro chain k hnodup hbf hmem hcont
    rw [List.map_cons] at hnodup
    have hnodup' : (rest.map Prod.fst).Nodup := (List.nodup_cons.mp hnodup).2
    have hhead : nv.1 ∉ rest.map Prod.fst := (List.nodup_cons.mp hnodup).1
    simp only [List.foldl_cons]
    by_cases hna : nv.1 = a
    · have hv : nv = (a, templateValue.list []) := by
        rcases List.mem_cons.mp hmem with he | hmem'
        · exact he.symm
        · exfalso
          apply hhead
          rw [hna]
          exact List.mem_map_of_mem Prod.fst hmem'
      rw [show substStep (chain, k) nv = ((substChain nv.1 nv.2 chain).1, 0) from by
        simp only [substStep]
        rw [hv]
        rw [substChain_empty_list_zero chain hcont, Nat.mul_zero]]
      exact foldl_substStep_zero rest _
    · have hmem' : (a, templateValue.list []) ∈ rest := by
        rcases List.mem_cons.mp hmem with he | h
        · exact absurd (by rw [← he] : nv.1 = a) hna
        · exact h
      have hbfc : braceFree nv.1 := hbf nv (List.mem_cons_self _ _)
      have hcont' := substChain_preserves_contains ha hbfc
        (fun h => hna h.symm) nv.2 (chainWeight chain) chain le_rfl hcont
      exact ih ((substChain nv.1 nv.2 chain).1) (k * (substChain nv.1 nv.2 chain).2)
        hnodup' (fun p hp => hbf p (List.mem_cons_of_mem _ hp)) hmem' hcont'

/-- C6: for every pathname template and parameter mapping (with
well-formed, pairwise-distinct brace-free parameter names) in which
some placeholder occurring in the template is bound to a zero-length
list, expansion returns exactly zero outputs; no error is possible
(the function is total). -/
theorem C6_empty_list_collapses_expansion
    (pathname : Str) (params : templateParams) (a : Str)
    (hnodup : (params.map Prod.fst).Nodup)
    (hnames : ∀ p ∈ params, braceFree p.1)
    (hmem : (a, templateValue.list []) ∈ params)
    (hocc : containsPat (placeholder a) pathname) :
    expandPathnameTemplate pathname params = [] := by
  have ha : braceFree a := hnames (a, .list []) hmem
  have hz : (buildChain pathname params).2 = 0 :=
    buildChain_count_zero ha params (.last pathname) 1 hnodup hnames hmem hocc
  unfold expandPathnameTemplate
  rw [if_pos hz, hz]
  rfl

/-- Witness for C6: `"{a}.c"` with `a` bound to the empty list (and a
second scalar parameter `b`) expands to no outputs. -/
theorem C6_witness :
    (((([(str "a", templateValue.list []),
         (str "b", templateValue.str (str "m"))]).map Prod.fst).Nodup) ∧
     (∀ p ∈ [(str "a", templateValue.list []),
             (str "b", templateValue.str (str "m"))], braceFree p.1) ∧
     ((str "a", templateValue.list []) ∈
        [(str "a", templateValue.list []), (str "b", templateValue.str (str "m"))]) ∧
     containsPat (placeholder (str "a")) (str "{a}.c")) ∧
    expandPathnameTemplate (str "{a}.c")
      [(str "a", templateValue.list []), (str "b", templateValue.str (str "m"))] = [] :=
  ⟨⟨by decide, by decide, by decide, ⟨[], str ".c", by decide⟩⟩,
   C6_empty_list_collapses_expansion (str "{a}.c")
     [(str "a", templateValue.list []), (str "b", templateValue.str (str "m"))]
     (str "a") (by decide) (by decide) (by decide) ⟨[], str ".c", by decide⟩⟩

/-- C4: expanding the pathname template `"{a}/{b}.c"` against a
mapping with `a = ["x","y"]` (list) and `b = "m"` (scalar) yields
exactly the two outputs `"x/m.c"` and `"y/m.c"`, in that order; the
first output's mapping has `a` rebound to `"x"`, the second to `"y"`,
and a lookup of `b` still yields `"m"` in both.  Proved for both
iteration orders of the two map entries (Go map order is
unspecified). -/
theorem C4_concrete_expansion :
    (expandPathnameTemplate (str "{a}/{b}.c")
        [(str "a", templateValue.list [str "x", str "y"]),
         (str "b", templateValue.str (str "m"))] =
      [⟨str "x/m.c", mapUpd [(str "a", templateValue.list [str "x", str "y"]),
          (str "b", templateValue.str (str "m"))] (str "a") (.str (str "x"))⟩,
       ⟨str "y/m.c", mapUpd [(str "a", templateValue.list [str "x", str "y"]),
          (str "b", templateValue.str (str "m"))] (str "a") (.str (str "y"))⟩]) ∧
    (expandPathnameTemplate (str "{a}/{b}.c")
        [(str "b", templateValue.str (str "m")),
         (str "a", templateValue.list [str "x", str "y"])] =
      [⟨str "x/m.c", mapUpd [(str "b", templateValue.str (str "m")),
          (str "a", templateValue.list [str "x", str "y"])] (str "a") (.str (str "x"))⟩,
       ⟨str "y/m.c", mapUpd [(str "b", templateValue.str (str "m")),
          (str "a", templateValue.list [str "x", str "y"])] (str "a") (.str (str "y"))⟩]) ∧
    (∀ fp ∈ expandPathnameTemplate (str "{a}/{b}.c")
        [(str "a", templateValue.list [str "x", str "y"]),
         (str "b", templateValue.str (str "m"))],
      mapGet fp.params (str "b") (templateValue.str []) =
        templateValue.str (str "m")) := by
  refine ⟨by decide, by decide, by decide⟩

/-- C5 counterexample: for `"{a}-{b}"` with `a = ["x","y"]` and
`b = ["1","2"]` the code produces the outputs in the order
`x-1, y-1, x-2, y-2` — the placeholder occurring EARLIER in the
pathname varies fastest — whereas the claimed ordering (later
placeholder varies fastest) would be `x-1, x-2, y-1, y-2`.  Both map
iteration orders produce the same (claim-refuting) order. -/
theorem C5_counterexample :
    ((expandPathnameTemplate (str "{a}-{b}")
        [(str "a", templateValue.list [str "x", str "y"]),
         (str "b", templateValue.list [str "1", str "2"])]).map
          (fun fp => fp.filename) = [str "x-1", str "y-1", str "x-2", str "y-2"]) ∧
    ((expandPathnameTemplate (str "{a}-{b}")
        [(str "b", templateValue.list [str "1", str "2"]),
         (str "a", templateValue.list [str "x", str "y"])]).map
          (fun fp => fp.filename) = [str "x-1", str "y-1", str "x-2", str "y-2"]) ∧
    ((expandPathnameTemplate (str "{a}-{b}")
        [(str "a", templateValue.list [str "x", str "y"]),
         (str "b", templateValue.list [str "1", str "2"])]).map
          (fun fp => fp.filename) ≠ [str "x-1", str "x-2", str "y-1", str "y-2"]) := by
  refine ⟨by decide, by decide, by decide⟩

/-! ## Locating placeholders with `splitFirst` -/

theorem splitFirst_cons_of_ne {pat : Str} {c : Char} {s : Str}
    (h : pat.isPrefixOf (c :: s) = false) :
    splitFirst pat (c :: s) =
      match splitFirst pat s with
      | some (pre, suf) => some (c :: pre, suf)
      | none => none := by
  conv_lhs => rw [splitFirst.eq_def]
  dsimp only
  rw [if_neg (by rw [h]; exact Bool.false_ne_true)]

theorem splitFirst_self_append {p : Str} (hp : p ≠ []) (rest : Str) :
    splitFirst p (p ++ rest) = some ([], rest) := by
  cases p with
  | nil => exact absurd rfl hp
  | cons c cs =>
    rw [List.cons_append]
    conv_lhs => rw [splitFirst.eq_def]
    dsimp only
    rw [if_pos (by rw [← List.cons_append]; exact isPrefixOf_self_append _ _)]
    rw [← List.cons_append, List.drop_left]

theorem splitFirst_skip {cs : Str} :
    ∀ {u : Str}, '{' ∉ u → ∀ (w : Str),
      splitFirst ('{' :: cs) (u ++ w) =
        (splitFirst ('{' :: cs) w).map (fun pr => (u ++ pr.1, pr.2)) := by
  intro u
  induction u with
  | nil =>
    intro _ w
    rw [List.nil_append]
    cases hsf : splitFirst ('{' :: cs) w with
    | none => simp
    | some pr => obtain ⟨x, y⟩ := pr; simp
  | cons x u' ih =>
    intro hu w
    have hx : x ≠ '{' := fun hx => hu (by rw [hx]; exact List.mem_cons_self _ _)
    have hu' : '{' ∉ u' := fun hm => hu (List.mem_cons_of_mem _ hm)
    rw [List.cons_append, splitFirst_cons_of_ne (by
      simp only [List.isPrefixOf, Bool.and_eq_false_iff]
      left
      simp only [beq_eq_false_iff_ne, ne_eq]
      exact fun hcc => hx hcc.symm), ih hu' w]
    cases hsf : splitFirst ('{' :: cs) w with
    | none => simp
    | some pr => obtain ⟨a, b⟩ := pr; simp

theorem splitFirst_boundary {cs : Str} {u : Str} (hu : '{' ∉ u) (rest : Str) :
    splitFirst ('{' :: cs) (u ++ ('{' :: cs) ++ rest) = some (u, rest) := by
  rw [List.append_assoc, splitFirst_skip hu, splitFirst_self_append (by simp) rest]
  simp

theorem splitFirst_skip_placeholder {a b : Str} (ha : braceFree a) (hb : braceFree b)
    (hne : a ≠ b) (w : Str) :
    splitFirst (placeholder b) (placeholder a ++ w) =
      (splitFirst (placeholder b) w).map (fun pr => (placeholder a ++ pr.1, pr.2)) := by
  rw [placeholder_append]
  rw [show placeholder b = '{' :: (b ++ ['}']) from rfl]
  rw [splitFirst_cons_of_ne (by
    cases hpre : List.isPrefixOf ('{' :: (b ++ ['}'])) ('{' :: (a ++ '}' :: w)) with
    | false => rfl
    | true =>
      exfalso
      have hdec := isPrefixOf_decomp hpre
      rw [List.cons_append] at hdec
      simp only [List.cons.injEq, true_and] at hdec
      rw [List.append_assoc, List.singleton_append] at hdec
      exact hne (name_eq_of_append_eq ha.2 hb.2 hdec))]
  have hnol : '{' ∉ a ++ ['}'] := by
    simp only [List.mem_append, List.mem_singleton]
    rintro (hin | hin)
    · exact ha.1 hin
    · cases hin
  rw [show a ++ '}' :: w = (a ++ ['}']) ++ w by simp]
  rw [splitFirst_skip hnol w]
  cases hsf : splitFirst ('{' :: (b ++ ['}'])) w with
  | none => simp
  | some pr =>
    obtain ⟨x, y⟩ := pr
    simp only [Option.map_some']
    rw [show placeholder a ++ x = '{' :: ((a ++ ['}']) ++ x) by
      rw [placeholder_append]; simp]

theorem not_contains_between {a b : Str} (ha : braceFree a) (hb : braceFree b)
    (hne : a ≠ b) {mid suf : Str} (hmid : braceFree mid) (hsuf : braceFree suf) :
    ¬ containsPat (placeholder a) (mid ++ placeholder b ++ suf) := by
  rintro ⟨pre₁, suf₁, heq⟩
  rcases contains_split_parts ha hb hne mid suf pre₁ suf₁ heq with hl | hr
  · exact not_contains_of_nolbrace hmid.1 hl
  · exact not_contains_of_nolbrace hsuf.1 hr

theorem splitFirst_placeholder_boundary {a u : Str} (hu : '{' ∉ u) (rest : Str) :
    splitFirst (placeholder a) (u ++ placeholder a ++ rest) = some (u, rest) :=
  splitFirst_boundary hu rest

theorem not_contains_placeholder_of_nolbrace {s b : Str} (hs : '{' ∉ s) :
    ¬ containsPat (placeholder b) s :=
  not_contains_of_nolbrace hs

theorem splitFirst_placeholder_skip {b u : Str} (hu : '{' ∉ u) (w : Str) :
    splitFirst (placeholder b) (u ++ w) =
      (splitFirst (placeholder b) w).map (fun pr => (u ++ pr.1, pr.2)) :=
  splitFirst_skip hu w

/-- First occurrence of `{b}` in `pre{a}mid{b}suf` is right after
`pre{a}mid` when the name and filler texts are brace-free. -/
theorem splitFirst_second_placeholder {a b : Str} (ha : braceFree a) (hb : braceFree b)
    (hne : a ≠ b) {pre mid : Str} (hpre : '{' ∉ pre) (hmid : '{' ∉ mid) (suf : Str) :
    splitFirst (placeholder b)
        (pre ++ placeholder a ++ (mid ++ placeholder b ++ suf)) =
      some (pre ++ placeholder a ++ mid, suf) := by
  rw [List.append_assoc pre]
  rw [splitFirst_placeholder_skip hpre]
  rw [splitFirst_skip_placeholder ha hb hne]
  rw [splitFirst_placeholder_boundary hmid suf]
  simp [List.append_assoc]


/-- Chain shape for a two-list-placeholder template, parameters in
first-occurrence order: the chain nests the earlier placeholder
outermost and the result count is the product of the list sizes. -/
theorem buildChain_two_lists_first {a b : Str} (ha : braceFree a) (hb : braceFree b)
    (hne : a ≠ b) {pre mid suf : Str} (hpre : braceFree pre) (hmid : braceFree mid)
    (hsuf : braceFree suf) (A B : List Str) :
    buildChain (pre ++ placeholder a ++ (mid ++ placeholder b ++ suf))
        [(a, .list A), (b, .list B)] =
      (.multiplier pre a A (.multiplier mid b B (.last suf)),
        A.length * B.length) := by
  have h1 : substChain a (.list A)
      (.last (pre ++ placeholder a ++ (mid ++ placeholder b ++ suf))) =
      (.multiplier pre a A (.last (mid ++ placeholder b ++ suf)), A.length) := by
    rw [substChain_last_list_some A
      (splitFirst_placeholder_boundary hpre.1 (mid ++ placeholder b ++ suf))]
    rw [substChain_last_list_none A
      (splitFirst_none_of_not_contains (not_contains_between ha hb hne hmid hsuf))]
    dsimp only
    rw [Nat.mul_one]
  have h2 : substChain b (.list B)
      (.multiplier pre a A (.last (mid ++ placeholder b ++ suf))) =
      (.multiplier pre a A (.multiplier mid b B (.last suf)), B.length) := by
    rw [substChain_mult_list_none B
      (splitFirst_none_of_not_contains (not_contains_placeholder_of_nolbrace hpre.1))]
    rw [substChain_last_list_some B (splitFirst_placeholder_boundary hmid.1 suf)]
    rw [substChain_last_list_none B
      (splitFirst_none_of_not_contains (not_contains_placeholder_of_nolbrace hsuf.1))]
    dsimp only
    rw [Nat.mul_one]
  unfold buildChain
  rw [List.foldl_cons, List.foldl_cons, List.foldl_nil]
  unfold substStep
  dsimp only
  rw [h1]
  dsimp only
  rw [h2]
  dsimp only
  rw [Nat.one_mul]

/-- Chain shape for a two-list-placeholder template, parameters in
the reverse of occurrence order: the chain is the same, with the
count factors commuted. -/
theorem buildChain_two_lists_second {a b : Str} (ha : braceFree a) (hb : braceFree b)
    (hne : a ≠ b) {pre mid suf : Str} (hpre : braceFree pre) (hmid : braceFree mid)
    (hsuf : braceFree suf) (A B : List Str) :
    buildChain (pre ++ placeholder a ++ (mid ++ placeholder b ++ suf))
        [(b, .list B), (a, .list A)] =
      (.multiplier pre a A (.multiplier mid b B (.last suf)),
        B.length * A.length) := by
  have h1 : substChain b (.list B)
      (.last (pre ++ placeholder a ++ (mid ++ placeholder b ++ suf))) =
      (.multiplier (pre ++ placeholder a ++ mid) b B (.last suf), B.length) := by
    rw [substChain_last_list_some B
      (splitFirst_second_placeholder ha hb hne hpre.1 hmid.1 suf)]
    rw [substChain_last_list_none B
      (splitFirst_none_of_not_contains (not_contains_placeholder_of_nolbrace hsuf.1))]
    dsimp only
    rw [Nat.mul_one]
  have h2 : substChain a (.list A)
      (.multiplier (pre ++ placeholder a ++ mid) b B (.last suf)) =
      (.multiplier pre a A (.multiplier mid b B (.last suf)), A.length) := by
    rw [substChain_mult_list_some A (splitFirst_placeholder_boundary hpre.1 mid)]
    rw [substChain_mult_list_none A
      (splitFirst_none_of_not_contains (not_contains_placeholder_of_nolbrace hmid.1))]
    rw [substChain_last_list_none A
      (splitFirst_none_of_not_contains (not_contains_placeholder_of_nolbrace hsuf.1))]
    dsimp only
    rw [Nat.mul_one]
  unfold buildChain
  rw [List.foldl_cons, List.foldl_cons, List.foldl_nil]
  unfold substStep
  dsimp only
  rw [h1]
  dsimp only
  rw [h2]
  dsimp only
  rw [Nat.one_mul]

theorem fillSegment_length (name : Str) (vs : List Str) (ct : Str) (s : Nat) :
    ∀ (i : Nat) (l : List fileParams),
      (fillSegment name vs ct s i l).length = l.length := by
  intro i l
  induction l generalizing i with
  | nil => rfl
  | cons fp rest ih => simp [fillSegment, ih]

theorem fillSegment_getElem (name : Str) (vs : List Str) (ct : Str) (s : Nat) :
    ∀ (i : Nat) (l : List fileParams) (j : Nat),
      (fillSegment name vs ct s i l)[j]? =
        (l[j]?).map (fun fp =>
          { filename := fp.filename ++ vs.getD ((i + j) / s % vs.length) [] ++ ct,
            params := mapUpd fp.params name
              (.str (vs.getD ((i + j) / s % vs.length) [])) }) := by
  intro i l
  induction l generalizing i with
  | nil => intro j; simp [fillSegment]
  | cons fp rest ih =>
    intro j
    cases j with
    | zero => simp [fillSegment]
    | succ j' =>
      simp only [fillSegment, List.getElem?_cons_succ]
      rw [ih (i + 1) j']
      have harith : i + 1 + j' = i + (j' + 1) := by omega
      rw [harith]

/-- C5: a pathname template with two list-valued placeholders of
sizes N and M expands, for either parameter iteration order, to
exactly N*M outputs, entry k taking element k % N of the first list
and element k / N of the second, with both parameters rebound to the
elements used.  Thus the placeholder occurring EARLIER in the
pathname varies fastest across consecutive outputs — the opposite of
the spec's "later placeholders vary fastest". -/
theorem C5_two_list_placeholders_earlier_varies_fastest
    {a b : Str} (ha : braceFree a) (hb : braceFree b) (hne : a ≠ b)
    {pre mid suf : Str} (hpre : braceFree pre) (hmid : braceFree mid)
    (hsuf : braceFree suf) (A B : List Str) (params : templateParams)
    (hparams : params = [(a, .list A), (b, .list B)] ∨
        params = [(b, .list B), (a, .list A)]) :
    (expandPathnameTemplate
        (pre ++ placeholder a ++ (mid ++ placeholder b ++ suf)) params).length =
      A.length * B.length ∧
    ∀ k, k < A.length * B.length →
      (expandPathnameTemplate
          (pre ++ placeholder a ++ (mid ++ placeholder b ++ suf)) params)[k]? =
        some { filename := pre ++ A.getD (k % A.length) [] ++ mid ++
                 B.getD (k / A.length) [] ++ suf,
               params := mapUpd (mapUpd params a (.str (A.getD (k % A.length) [])))
                 b (.str (B.getD (k / A.length) [])) } := by
  have hbc : buildChain (pre ++ placeholder a ++ (mid ++ placeholder b ++ suf))
      params =
      (.multiplier pre a A (.multiplier mid b B (.last suf)),
        A.length * B.length) := by
    rcases hparams with rfl | rfl
    · exact buildChain_two_lists_first ha hb hne hpre hmid hsuf A B
    · rw [buildChain_two_lists_second ha hb hne hpre hmid hsuf A B, Nat.mul_comm]
  unfold expandPathnameTemplate
  rw [hbc]
  dsimp only
  by_cases h0 : A.length * B.length = 0
  · rw [if_pos h0, h0]
    exact ⟨by simp, fun k hk => absurd hk (by omega)⟩
  · rw [if_neg h0]
    simp only [fillChain, headText]
    constructor
    · rw [fillSegment_length, fillSegment_length, List.length_replicate]
    · intro k hk
      have hdiv : k / A.length < B.length := Nat.div_lt_of_lt_mul hk
      rw [fillSegment_getElem, fillSegment_getElem, List.getElem?_replicate,
        if_pos hk]
      simp only [Option.map_some']
      simp only [Nat.zero_add, Nat.div_one, Nat.one_mul]
      rw [Nat.mod_eq_of_lt hdiv]

theorem C5_amended_witness :
    (expandPathnameTemplate
        (str "" ++ placeholder (str "a") ++
          (str "-" ++ placeholder (str "b") ++ str ""))
        [(str "a", .list [str "x", str "y"]),
         (str "b", .list [str "1", str "2"])]).length =
      ([str "x", str "y"] : List Str).length *
        ([str "1", str "2"] : List Str).length ∧
    ∀ k, k < ([str "x", str "y"] : List Str).length *
        ([str "1", str "2"] : List Str).length →
      (expandPathnameTemplate
          (str "" ++ placeholder (str "a") ++
            (str "-" ++ placeholder (str "b") ++ str ""))
          [(str "a", .list [str "x", str "y"]),
           (str "b", .list [str "1", str "2"])])[k]? =
        some { filename := str "" ++
                 ([str "x", str "y"] : List Str).getD
                   (k % ([str "x", str "y"] : List Str).length) [] ++ str "-" ++
                 ([str "1", str "2"] : List Str).getD
                   (k / ([str "x", str "y"] : List Str).length) [] ++ str "",
               params := mapUpd (mapUpd
                   [(str "a", .list [str "x", str "y"]),
                    (str "b", .list [str "1", str "2"])]
                   (str "a")
                   (.str (([str "x", str "y"] : List Str).getD
                     (k % ([str "x", str "y"] : List Str).length) [])))
                 (str "b")
                 (.str (([str "1", str "2"] : List Str).getD
                   (k / ([str "x", str "y"] : List Str).length) [])) } :=
  C5_two_list_placeholders_earlier_varies_fastest
    (by decide) (by decide) (by decide) (by decide) (by decide) (by decide)
    [str "x", str "y"] [str "1", str "2"] _ (Or.inl rfl)

/-! ## Materializer (template.go): writing expanded files to disk

The file system is an association list from absolute pathnames to
entries; a Go `template.Execute` render is abstracted as a function
from the template contents and the per-file parameters to the output
bytes. -/

inductive fsEntry where
  | file (contents : Str)
  | symlink (target : Str)
deriving DecidableEq, Repr

abbrev fileSystem := strMap fsEntry

/-- `os.Lstat`: look the pathname up without following symlinks;
`none` models `os.IsNotExist`. -/
def fsStat (fs : fileSystem) (p : Str) : Option fsEntry :=
  (fs.find? (fun kv => kv.1 == p)).map Prod.snd

def joinPath (d f : Str) : Str := d ++ '/' :: f

/-- One `fmt.Println(mode, projectFile)` report line. -/
structure matReport where
  mode : Str
  path : Str
deriving DecidableEq, Repr

/-- The output loop of `generateFilesFromFileTemplate` (template.go):
a missing file is created and reported "A"; an existing regular file
with different contents is overwritten and reported "U"; a symlink
(or other entry) is removed, rewritten and reported "R"; and on a
byte-identical regular file the function RETURNS, abandoning the
remaining output files of the template. -/
def writeOutputs (fs : fileSystem) (reports : List matReport) :
    List (Str × Str) → fileSystem × List matReport
  | [] => (fs, reports)
  | (fname, contents) :: rest =>
    match fsStat fs fname with
    | none =>
      writeOutputs (mapUpd fs fname (.file contents))
        (reports ++ [⟨str "A", fname⟩]) rest
    | some (.file old) =>
      if old = contents then
        (fs, reports)
      else
        writeOutputs (mapUpd fs fname (.file contents))
          (reports ++ [⟨str "U", fname⟩]) rest
    | some (.symlink _) =>
      writeOutputs (mapUpd fs fname (.file contents))
        (reports ++ [⟨str "R", fname⟩]) rest

/-- `executeFileTemplate` (template.go): expand the pathname template
and render the parsed template once per expansion, with that
expansion's parameter values. -/
def executeFileTemplate (render : Str → templateParams → Str)
    (templatePathname templateContents : Str) (params : templateParams) :
    List (Str × Str) :=
  (expandPathnameTemplate templatePathname params).map
    (fun fp => (fp.filename, render templateContents fp.params))

/-- `generateFilesFromFileTemplate` (template.go): render every
expansion of the template and run the output-writing loop on the
results, joined under the project directory. -/
def generateFilesFromFileTemplate (render : Str → templateParams → Str)
    (projectDir templatePathname templateContents : Str)
    (params : templateParams) (fs : fileSystem) :
    fileSystem × List matReport :=
  writeOutputs fs []
    ((executeFileTemplate render templatePathname templateContents params).map
      (fun oc => (joinPath projectDir oc.1, oc.2)))

/-- C7: the materializer is NOT idempotent in the claimed sense: when
an output file already exists with byte-identical content, the code
returns from the whole function instead of continuing with the next
output file of the same template.  With template `{n}`, n = [f1, f2]
and contents `c`, starting from a file system where `p/f1` already
holds `c` and `p/f2` is absent, the run performs no write and no
report at all and `p/f2` stays absent, although the claim requires
the remaining output files to still be processed; reversing the list
order shows the loop does create the missing file when it is reached
before the byte-identical one. -/
theorem C7_identical_file_aborts_remaining_outputs :
    (generateFilesFromFileTemplate (fun c _ => c) (str "p") (str "{n}")
        (str "c") [(str "n", .list [str "f1", str "f2"])]
        [(joinPath (str "p") (str "f1"), .file (str "c"))] =
      ([(joinPath (str "p") (str "f1"), .file (str "c"))], [])) ∧
    (fsStat (generateFilesFromFileTemplate (fun c _ => c) (str "p") (str "{n}")
        (str "c") [(str "n", .list [str "f1", str "f2"])]
        [(joinPath (str "p") (str "f1"), .file (str "c"))]).1
      (joinPath (str "p") (str "f2")) = none) ∧
    (generateFilesFromFileTemplate (fun c _ => c) (str "p") (str "{n}")
        (str "c") [(str "n", .list [str "f2", str "f1"])]
        [(joinPath (str "p") (str "f1"), .file (str "c"))] =
      (mapUpd [(joinPath (str "p") (str "f1"), .file (str "c"))]
          (joinPath (str "p") (str "f2")) (.file (str "c")),
        [⟨str "A", joinPath (str "p") (str "f2")⟩])) := by
  refine ⟨by decide, by decide, by decide⟩

structure fileTemplate where
  pathname : Str
  contents : Str
deriving DecidableEq, Repr

/-- The loop of `generateBuildFilesFromEmbeddedTemplate`
(template.go): a template file whose (unexpanded) pathname is a key
of `sourceFiles` is skipped; every other template file is expanded,
rendered and written, accumulating the reports. -/
def genEmbeddedLoop (render : Str → templateParams → Str) (projectDir : Str)
    (params : templateParams) (sourceFiles : List Str) :
    fileSystem → List matReport → List fileTemplate → fileSystem × List matReport
  | fs, reports, [] => (fs, reports)
  | fs, reports, ft :: rest =>
    if ft.pathname ∈ sourceFiles then
      genEmbeddedLoop render projectDir params sourceFiles fs reports rest
    else
      genEmbeddedLoop render projectDir params sourceFiles
        (generateFilesFromFileTemplate render projectDir ft.pathname
          ft.contents params fs).1
        (reports ++ (generateFilesFromFileTemplate render projectDir ft.pathname
          ft.contents params fs).2) rest

/-- `generateBuildFilesFromEmbeddedTemplate` (template.go), over an
abstract render function, a covered-by-source set (the keys collected
by `linkFilesFromSourceDir`) and a starting file system that already
holds the symlinks that function created. -/
def generateBuildFilesFromEmbeddedTemplate (render : Str → templateParams → Str)
    (t : List fileTemplate) (projectDir : Str) (params : templateParams)
    (sourceFiles : List Str) (fs : fileSystem) : fileSystem × List matReport :=
  genEmbeddedLoop render projectDir params sourceFiles fs [] t

theorem C8_counterexample :
    (generateBuildFilesFromEmbeddedTemplate (fun c _ => c)
        [⟨str "{n}.txt", str "new"⟩] (str "p") [(str "n", .str (str "x"))]
        [str "x.txt"]
        [(joinPath (str "p") (str "x.txt"), .symlink (str "s/x.txt"))] =
      (mapUpd [(joinPath (str "p") (str "x.txt"), .symlink (str "s/x.txt"))]
          (joinPath (str "p") (str "x.txt")) (.file (str "new")),
        [⟨str "R", joinPath (str "p") (str "x.txt")⟩])) ∧
    (fsStat (generateBuildFilesFromEmbeddedTemplate (fun c _ => c)
        [⟨str "{n}.txt", str "new"⟩] (str "p") [(str "n", .str (str "x"))]
        [str "x.txt"]
        [(joinPath (str "p") (str "x.txt"),
          .symlink (str "s/x.txt"))]).1
      (joinPath (str "p") (str "x.txt")) = some (.file (str "new"))) := by
  refine ⟨by decide, by decide⟩

theorem replaceAll_placeholder_nolbrace {name v : Str} :
    ∀ {s : Str}, '{' ∉ s → replaceAll (placeholder name) v s = s := by
  intro s
  induction s with
  | nil => intro _; rfl
  | cons c rest ih =>
    intro hs
    have hc : c ≠ '{' := fun h => hs (by rw [h]; exact List.mem_cons_self _ _)
    rw [replaceAll_cons_of_ne (by
      simp only [placeholder, List.isPrefixOf, Bool.and_eq_false_iff]
      left
      simp only [beq_eq_false_iff_ne, ne_eq]
      exact fun hcc => hc hcc.symm)]
    rw [ih (fun hm => hs (List.mem_cons_of_mem _ hm))]

theorem substStep_last_nolbrace {p : Str} (hp : '{' ∉ p) (nv : Str × templateValue) :
    substStep (.last p, 1) nv = (.last p, 1) := by
  obtain ⟨name, v⟩ := nv
  cases v with
  | str s =>
    unfold substStep
    dsimp only
    rw [substChain_last_str]
    dsimp only
    rw [replaceAll_placeholder_nolbrace hp]
  | other r =>
    unfold substStep
    dsimp only
    rw [substChain_last_other]
    dsimp only
    rw [replaceAll_placeholder_nolbrace hp]
  | list vs =>
    unfold substStep
    dsimp only
    rw [substChain_last_list_none vs (splitFirst_none_of_not_contains
      (not_contains_placeholder_of_nolbrace hp))]
    rfl

theorem buildChain_nolbrace {p : Str} (hp : '{' ∉ p) (params : templateParams) :
    buildChain p params = (.last p, 1) := by
  unfold buildChain
  induction params with
  | nil => rfl
  | cons nv rest ih =>
    rw [List.foldl_cons, substStep_last_nolbrace hp nv, ih]

/-- A placeholder-free pathname template expands to exactly itself,
with the parameter mapping passed through unchanged. -/
theorem expandPathnameTemplate_nolbrace {p : Str} (hp : '{' ∉ p)
    (params : templateParams) :
    expandPathnameTemplate p params = [⟨p, params⟩] := by
  unfold expandPathnameTemplate
  rw [buildChain_nolbrace hp]
  dsimp only
  rw [if_neg (by decide)]
  rfl

theorem fsStat_mapUpd_ne {fs : fileSystem} {k p : Str} (h : k ≠ p) (v : fsEntry) :
    fsStat (mapUpd fs k v) p = fsStat fs p := by
  unfold fsStat mapUpd
  rw [List.find?_cons_of_neg]
  simp [h]

theorem writeOutputs_cons (fs : fileSystem) (reports : List matReport)
    (fname contents : Str) (rest : List (Str × Str)) :
    writeOutputs fs reports ((fname, contents) :: rest) =
      match fsStat fs fname with
      | none => writeOutputs (mapUpd fs fname (.file contents))
          (reports ++ [⟨str "A", fname⟩]) rest
      | some (.file old) =>
        if old = contents then (fs, reports)
        else writeOutputs (mapUpd fs fname (.file contents))
          (reports ++ [⟨str "U", fname⟩]) rest
      | some (.symlink _) => writeOutputs (mapUpd fs fname (.file contents))
          (reports ++ [⟨str "R", fname⟩]) rest := rfl

theorem writeOutputs_fsStat_other {p : Str} :
    ∀ (outs : List (Str × Str)) (fs : fileSystem) (reports : List matReport),
      (∀ o ∈ outs, o.1 ≠ p) →
      fsStat (writeOutputs fs reports outs).1 p = fsStat fs p := by
  intro outs
  induction outs with
  | nil => intro fs reports _; rfl
  | cons o rest ih =>
    intro fs reports h
    obtain ⟨fname, contents⟩ := o
    have hf : fname ≠ p := h (fname, contents) (List.mem_cons_self _ _)
    have hr : ∀ o ∈ rest, o.1 ≠ p := fun o ho => h o (List.mem_cons_of_mem _ ho)
    rw [writeOutputs_cons]
    cases hst : fsStat fs fname with
    | none =>
      dsimp only
      rw [ih _ _ hr, fsStat_mapUpd_ne hf]
    | some e =>
      cases e with
      | file old =>
        dsimp only
        by_cases heq : old = contents
        · rw [if_pos heq]
        · rw [if_neg heq, ih _ _ hr, fsStat_mapUpd_ne hf]
      | symlink tg =>
        dsimp only
        rw [ih _ _ hr, fsStat_mapUpd_ne hf]

theorem writeOutputs_reports_other {p : Str} :
    ∀ (outs : List (Str × Str)) (fs : fileSystem) (reports : List matReport),
      (∀ o ∈ outs, o.1 ≠ p) → (∀ r ∈ reports, r.path ≠ p) →
      ∀ r ∈ (writeOutputs fs reports outs).2, r.path ≠ p := by
  intro outs
  induction outs with
  | nil => intro fs reports _ hrep r hr; exact hrep r hr
  | cons o rest ih =>
    intro fs reports h hrep
    obtain ⟨fname, contents⟩ := o
    have hf : fname ≠ p := h (fname, contents) (List.mem_cons_self _ _)
    have hr : ∀ o ∈ rest, o.1 ≠ p := fun o ho => h o (List.mem_cons_of_mem _ ho)
    have hrep' : ∀ (m : Str), ∀ r ∈ reports ++ [(⟨m, fname⟩ : matReport)],
        r.path ≠ p := by
      intro m r hrm
      rcases List.mem_append.mp hrm with h1 | h2
      · exact hrep r h1
      · rw [List.mem_singleton.mp h2]
        exact hf
    rw [writeOutputs_cons]
    cases hst : fsStat fs fname with
    | none =>
      dsimp only
      exact ih _ _ hr (hrep' (str "A"))
    | some e =>
      cases e with
      | file old =>
        dsimp only
        by_cases heq : old = contents
        · rw [if_pos heq]
          exact hrep
        · rw [if_neg heq]
          exact ih _ _ hr (hrep' (str "U"))
      | symlink tg =>
        dsimp only
        exact ih _ _ hr (hrep' (str "R"))

theorem joinPath_inj {d x y : Str} (h : joinPath d x = joinPath d y) : x = y := by
  unfold joinPath at h
  have h2 := List.append_cancel_left h
  exact (List.cons.injEq _ _ _ _ ▸ h2).2

theorem genEmbeddedLoop_skip (render : Str → templateParams → Str)
    (projectDir : Str) (params : templateParams) (sourceFiles : List Str)
    (ft : fileTemplate) (rest : List fileTemplate) (fs : fileSystem)
    (reports : List matReport) (hmem : ft.pathname ∈ sourceFiles) :
    genEmbeddedLoop render projectDir params sourceFiles fs reports (ft :: rest) =
      genEmbeddedLoop render projectDir params sourceFiles fs reports rest := by
  conv_lhs => rw [genEmbeddedLoop.eq_def]
  dsimp only
  rw [if_pos hmem]

theorem genEmbeddedLoop_untouched {render : Str → templateParams → Str}
    {projectDir : Str} {params : templateParams} {sourceFiles : List Str}
    {p : Str} (hp : p ∈ sourceFiles) :
    ∀ (t : List fileTemplate) (fs : fileSystem) (reports : List matReport),
      (∀ ft ∈ t, '{' ∉ ft.pathname) →
      fsStat (genEmbeddedLoop render projectDir params sourceFiles
          fs reports t).1 (joinPath projectDir p) =
        fsStat fs (joinPath projectDir p) ∧
      ((∀ r ∈ reports, r.path ≠ joinPath projectDir p) →
        ∀ r ∈ (genEmbeddedLoop render projectDir params sourceFiles
            fs reports t).2, r.path ≠ joinPath projectDir p) := by
  intro t
  induction t with
  | nil => intro fs reports _; exact ⟨rfl, fun h => h⟩
  | cons ft rest ih =>
    intro fs reports ht
    have hft : '{' ∉ ft.pathname := ht ft (List.mem_cons_self _ _)
    have hrest : ∀ f ∈ rest, '{' ∉ f.pathname :=
      fun f hf => ht f (List.mem_cons_of_mem _ hf)
    by_cases hmem : ft.pathname ∈ sourceFiles
    · rw [genEmbeddedLoop_skip render projectDir params sourceFiles
        ft rest fs reports hmem]
      exact ih fs reports hrest
    · have hstep : genEmbeddedLoop render projectDir params sourceFiles
          fs reports (ft :: rest) =
          genEmbeddedLoop render projectDir params sourceFiles
            (generateFilesFromFileTemplate render projectDir ft.pathname
              ft.contents params fs).1
            (reports ++ (generateFilesFromFileTemplate render projectDir
              ft.pathname ft.contents params fs).2) rest := by
        conv_lhs => rw [genEmbeddedLoop.eq_def]
        dsimp only
        rw [if_neg hmem]
      have houts : ∀ o ∈ (executeFileTemplate render ft.pathname ft.contents
          params).map (fun oc => (joinPath projectDir oc.1, oc.2)),
          o.1 ≠ joinPath projectDir p := by
        intro o ho
        rw [executeFileTemplate, expandPathnameTemplate_nolbrace hft] at ho
        simp only [List.map_cons, List.map_nil, List.mem_singleton] at ho
        rw [ho]
        intro hjoin
        exact hmem ((joinPath_inj hjoin) ▸ hp)
      rw [hstep]
      obtain ⟨ih1, ih2⟩ := ih
        (generateFilesFromFileTemplate render projectDir ft.pathname
          ft.contents params fs).1
        (reports ++ (generateFilesFromFileTemplate render projectDir
          ft.pathname ft.contents params fs).2) hrest
      constructor
      · rw [ih1]
        unfold generateFilesFromFileTemplate
        exact writeOutputs_fsStat_other _ _ _ houts
      · intro hrep
        refine ih2 ?_
        intro r hr
        rcases List.mem_append.mp hr with h1 | h2
        · exact hrep r h1
        · unfold generateFilesFromFileTemplate at h2
          exact writeOutputs_reports_other _ _ _ houts
            (fun r hr' => absurd hr' (List.not_mem_nil r)) r h2

/-- C8: the covered-by-source skip happens at the granularity of the
UNEXPANDED template pathname: a template file whose pathname is a key
of the covered set contributes nothing, and — provided every template
pathname is placeholder-free, so that pathnames expand to themselves —
every covered path keeps its file-system entry (in particular its
symlink) untouched and is never named in a report.  Without the
placeholder-free proviso the original claim fails: an EXPANDED
pathname that collides with a covered path is written and replaces
the symlink (see the counterexample). -/
theorem C8_covered_template_pathnames_skipped
    (render : Str → templateParams → Str) (t : List fileTemplate)
    (projectDir : Str) (params : templateParams) (sourceFiles : List Str)
    (fs : fileSystem) (ht : ∀ ft ∈ t, '{' ∉ ft.pathname) :
    (∀ (ft : fileTemplate) (rest : List fileTemplate) (fs' : fileSystem)
        (reports : List matReport), ft.pathname ∈ sourceFiles →
      genEmbeddedLoop render projectDir params sourceFiles fs' reports
          (ft :: rest) =
        genEmbeddedLoop render projectDir params sourceFiles fs' reports rest) ∧
    (∀ p ∈ sourceFiles,
      fsStat (generateBuildFilesFromEmbeddedTemplate render t projectDir params
          sourceFiles fs).1 (joinPath projectDir p) =
        fsStat fs (joinPath projectDir p) ∧
      ∀ r ∈ (generateBuildFilesFromEmbeddedTemplate render t projectDir params
          sourceFiles fs).2, r.path ≠ joinPath projectDir p) := by
  constructor
  · intro ft rest fs' reports hmem
    exact genEmbeddedLoop_skip render projectDir params sourceFiles
      ft rest fs' reports hmem
  · intro p hp
    obtain ⟨h1, h2⟩ := genEmbeddedLoop_untouched hp t fs [] ht
    exact ⟨h1, h2 (fun r hr => absurd hr (List.not_mem_nil r))⟩

theorem C8_witness :
    (∀ (ft : fileTemplate) (rest : List fileTemplate) (fs' : fileSystem)
        (reports : List matReport), ft.pathname ∈ [str "x.txt"] →
      genEmbeddedLoop (fun c _ => c) (str "p") [] [str "x.txt"] fs' reports
          (ft :: rest) =
        genEmbeddedLoop (fun c _ => c) (str "p") [] [str "x.txt"]
          fs' reports rest) ∧
    (∀ p ∈ [str "x.txt"],
      fsStat (generateBuildFilesFromEmbeddedTemplate (fun c _ => c)
          [⟨str "a.txt", str "A"⟩] (str "p") [] [str "x.txt"]
          [(joinPath (str "p") (str "x.txt"), .symlink (str "s/x.txt"))]).1
          (joinPath (str "p") p) =
        fsStat [(joinPath (str "p") (str "x.txt"), .symlink (str "s/x.txt"))]
          (joinPath (str "p") p) ∧
      ∀ r ∈ (generateBuildFilesFromEmbeddedTemplate (fun c _ => c)
          [⟨str "a.txt", str "A"⟩] (str "p") [] [str "x.txt"]
          [(joinPath (str "p") (str "x.txt"), .symlink (str "s/x.txt"))]).2,
        r.path ≠ joinPath (str "p") p) :=
  C8_covered_template_pathnames_skipped (fun c _ => c)
    [⟨str "a.txt", str "A"⟩] (str "p") [] [str "x.txt"]
    [(joinPath (str "p") (str "x.txt"), .symlink (str "s/x.txt"))]
    (by decide)

/-! ## Makefile target generation (targets.go)

Workspace-dependent strings (directory names, the configure command
line, the per-package bootstrap script) are abstract parameters; the
structure and order of the generated targets come from the source. -/

structure target where
  Target : Str
  Phony : Bool
  Dependencies : List Str
  MakeScript : Str
deriving DecidableEq, Repr

/-- `makeTargetData.globalTarget` (targets.go): the aggregate phony
target whose dependencies are `<name>_<package>` for each selected
package, in selection order. -/
def globalTarget (targetName : Str) (selection : List packageDefinition) :
    target :=
  { Target := targetName
    Phony := true
    Dependencies := selection.map (fun pd => targetName ++ '_' :: pd.PackageName)
    MakeScript := [] }

/-- `bootstrapTarget.targets` (targets.go): the global target followed
by, per selected package in order, a phony `bootstrap_<pkg>` target
running the bootstrap script and a `<private>/<pkg dir>/<pkg>/configure`
file target delegating to it. -/
def bootstrapTargets (privateDirName pkgDirName : Str)
    (bootstrapScript : Str → Str) (selection : List packageDefinition) :
    List target :=
  globalTarget (str "bootstrap") selection ::
    (selection.map (fun pd =>
      [{ Target := str "bootstrap" ++ '_' :: pd.PackageName
         Phony := true
         Dependencies := []
         MakeScript := bootstrapScript pd.PackageName },
       { Target := joinPath (joinPath privateDirName pkgDirName)
           (joinPath pd.PackageName (str "configure"))
         Phony := false
         Dependencies := []
         MakeScript := str "\t@$(MAKE) -s " ++
           (str "bootstrap" ++ '_' :: pd.PackageName) ++ str "\n" }])).flatten

/-- `configureTarget.targets` (targets.go): the global target followed
by, per selected package in order, a phony `configure_<pkg>` target and
a `<relBuildDir>/<pkg>/Makefile` file target, both running the
configure command for the package. -/
def configureTargets (relBuildDir cmd : Str)
    (selection : List packageDefinition) : List target :=
  globalTarget (str "configure") selection ::
    (selection.map (fun pd =>
      [{ Target := str "configure" ++ '_' :: pd.PackageName
         Phony := true
         Dependencies := []
         MakeScript := cmd ++ pd.PackageName ++ str "\n" },
       { Target := joinPath relBuildDir (joinPath pd.PackageName (str "Makefile"))
         Phony := false
         Dependencies := []
         MakeScript := cmd ++ pd.PackageName ++ str "\n" }])).flatten

theorem join_pairs_length {α β : Type} (f g : α → β) :
    ∀ (l : List α), ((l.map (fun a => [f a, g a])).flatten).length = 2 * l.length := by
  intro l
  induction l with
  | nil => rfl
  | cons a rest ih =>
    simp only [List.map_cons, List.flatten_cons, List.length_append,
      List.length_cons, List.length_nil, ih]
    omega

theorem join_pairs_getElem {α β : Type} (f g : α → β) :
    ∀ (l : List α) (i : Nat) (x : α), l[i]? = some x →
      ((l.map (fun a => [f a, g a])).flatten)[2 * i]? = some (f x) ∧
      ((l.map (fun a => [f a, g a])).flatten)[2 * i + 1]? = some (g x) := by
  intro l
  induction l with
  | nil => intro i x h; simp at h
  | cons a rest ih =>
    intro i x h
    cases i with
    | zero =>
      rw [List.getElem?_cons_zero, Option.some.injEq] at h
      subst h
      constructor
      · have h2 : 2 * 0 = 0 := rfl
        rw [h2]
        show (f a :: g a :: ((rest.map (fun a => [f a, g a])).flatten))[0]? =
          some (f a)
        rw [List.getElem?_cons_zero]
      · have h2 : 2 * 0 + 1 = 0 + 1 := rfl
        rw [h2]
        show (f a :: g a :: ((rest.map (fun a => [f a, g a])).flatten))[0 + 1]? =
          some (g a)
        rw [List.getElem?_cons_succ, List.getElem?_cons_zero]
    | succ i' =>
      rw [List.getElem?_cons_succ] at h
      obtain ⟨ih1, ih2⟩ := ih i' x h
      constructor
      · have h2 : 2 * (i' + 1) = 2 * i' + 1 + 1 := by omega
        rw [h2]
        show (f a :: g a :: ((rest.map (fun a => [f a, g a])).flatten))[2 * i' + 1 + 1]? =
          some (f x)
        rw [List.getElem?_cons_succ, List.getElem?_cons_succ]
        exact ih1
      · have h2 : 2 * (i' + 1) + 1 = 2 * i' + 1 + 1 + 1 := by omega
        rw [h2]
        show (f a :: g a :: ((rest.map (fun a => [f a, g a])).flatten))[2 * i' + 1 + 1 + 1]? =
          some (g x)
        rw [List.getElem?_cons_succ, List.getElem?_cons_succ]
        exact ih2

/-- C9: for every selection, the global aggregate target lists its
dependency `<type>_<name>` for the i-th selected package at position
i, and each target type emits the two sub-targets of the i-th
selected package (phony target and file target) at positions 2i+1 and
2i+2 of its target list, after the global target at position 0 — so
per-package sub-targets and global dependencies both follow the
selection order. -/
theorem C9_targets_follow_selection_order
    (privateDirName pkgDirName : Str) (bootstrapScript : Str → Str)
    (relBuildDir cmd : Str) (selection : List packageDefinition)
    (i : Nat) (pd : packageDefinition) (hi : selection[i]? = some pd) :
    ((globalTarget (str "bootstrap") selection).Dependencies[i]? =
      some (str "bootstrap" ++ '_' :: pd.PackageName)) ∧
    ((globalTarget (str "configure") selection).Dependencies[i]? =
      some (str "configure" ++ '_' :: pd.PackageName)) ∧
    ((bootstrapTargets privateDirName pkgDirName bootstrapScript
        selection).length = 2 * selection.length + 1) ∧
    ((configureTargets relBuildDir cmd selection).length =
      2 * selection.length + 1) ∧
    ((bootstrapTargets privateDirName pkgDirName bootstrapScript
        selection)[0]? = some (globalTarget (str "bootstrap") selection)) ∧
    ((configureTargets relBuildDir cmd selection)[0]? =
      some (globalTarget (str "configure") selection)) ∧
    ((bootstrapTargets privateDirName pkgDirName bootstrapScript
        selection)[2 * i + 1]? =
      some { Target := str "bootstrap" ++ '_' :: pd.PackageName
             Phony := true
             Dependencies := []
             MakeScript := bootstrapScript pd.PackageName }) ∧
    ((bootstrapTargets privateDirName pkgDirName bootstrapScript
        selection)[2 * i + 2]? =
      some { Target := joinPath (joinPath privateDirName pkgDirName)
               (joinPath pd.PackageName (str "configure"))
             Phony := false
             Dependencies := []
             MakeScript := str "\t@$(MAKE) -s " ++
               (str "bootstrap" ++ '_' :: pd.PackageName) ++ str "\n" }) ∧
    ((configureTargets relBuildDir cmd selection)[2 * i + 1]? =
      some { Target := str "configure" ++ '_' :: pd.PackageName
             Phony := true
             Dependencies := []
             MakeScript := cmd ++ pd.PackageName ++ str "\n" }) ∧
    ((configureTargets relBuildDir cmd selection)[2 * i + 2]? =
      some { Target := joinPath relBuildDir
               (joinPath pd.PackageName (str "Makefile"))
             Phony := false
             Dependencies := []
             MakeScript := cmd ++ pd.PackageName ++ str "\n" }) := by
  refine ⟨?_, ?_, ?_, ?_, ?_, ?_, ?_, ?_, ?_, ?_⟩
  · simp only [globalTarget, List.getElem?_map, hi, Option.map_some']
  · simp only [globalTarget, List.getElem?_map, hi, Option.map_some']
  · simp only [bootstrapTargets, List.length_cons, join_pairs_length]
  · simp only [configureTargets, List.length_cons, join_pairs_length]
  · simp only [bootstrapTargets, List.getElem?_cons_zero]
  · simp only [configureTargets, List.getElem?_cons_zero]
  · simp only [bootstrapTargets, List.getElem?_cons_succ]
    exact (join_pairs_getElem _ _ selection i pd hi).1
  · have h2 : 2 * i + 2 = (2 * i + 1) + 1 := rfl
    rw [h2]
    simp only [bootstrapTargets, List.getElem?_cons_succ]
    exact (join_pairs_getElem _ _ selection i pd hi).2
  · simp only [configureTargets, List.getElem?_cons_succ]
    exact (join_pairs_getElem _ _ selection i pd hi).1
  · have h2 : 2 * i + 2 = (2 * i + 1) + 1 := rfl
    rw [h2]
    simp only [configureTargets, List.getElem?_cons_succ]
    exact (join_pairs_getElem _ _ selection i pd hi).2

theorem C9_witness :
    ((globalTarget (str "bootstrap") [pdA, pdB]).Dependencies[1]? =
      some (str "bootstrap" ++ '_' :: pdB.PackageName)) ∧
    ((globalTarget (str "configure") [pdA, pdB]).Dependencies[1]? =
      some (str "configure" ++ '_' :: pdB.PackageName)) ∧
    ((bootstrapTargets (str "private") (str "pkg") (fun n => n)
        [pdA, pdB]).length = 2 * ([pdA, pdB] : List packageDefinition).length + 1) ∧
    ((configureTargets (str "build") (str "cmd ") [pdA, pdB]).length =
      2 * ([pdA, pdB] : List packageDefinition).length + 1) ∧
    ((bootstrapTargets (str "private") (str "pkg") (fun n => n)
        [pdA, pdB])[0]? = some (globalTarget (str "bootstrap") [pdA, pdB])) ∧
    ((configureTargets (str "build") (str "cmd ") [pdA, pdB])[0]? =
      some (globalTarget (str "configure") [pdA, pdB])) ∧
    ((bootstrapTargets (str "private") (str "pkg") (fun n => n)
        [pdA, pdB])[2 * 1 + 1]? =
      some { Target := str "bootstrap" ++ '_' :: pdB.PackageName
             Phony := true
             Dependencies := []
             MakeScript := pdB.PackageName }) ∧
    ((bootstrapTargets (str "private") (str "pkg") (fun n => n)
        [pdA, pdB])[2 * 1 + 2]? =
      some { Target := joinPath (joinPath (str "private") (str "pkg"))
               (joinPath pdB.PackageName (str "configure"))
             Phony := false
             Dependencies := []
             MakeScript := str "\t@$(MAKE) -s " ++
               (str "bootstrap" ++ '_' :: pdB.PackageName) ++ str "\n" }) ∧
    ((configureTargets (str "build") (str "cmd ") [pdA, pdB])[2 * 1 + 1]? =
      some { Target := str "configure" ++ '_' :: pdB.PackageName
             Phony := true
             Dependencies := []
             MakeScript := str "cmd " ++ pdB.PackageName ++ str "\n" }) ∧
    ((configureTargets (str "build") (str "cmd ") [pdA, pdB])[2 * 1 + 2]? =
      some { Target := joinPath (str "build")
               (joinPath pdB.PackageName (str "Makefile"))
             Phony := false
             Dependencies := []
             MakeScript := str "cmd " ++ pdB.PackageName ++ str "\n" }) :=
  C9_targets_follow_selection_order (str "private") (str "pkg") (fun n => n)
    (str "build") (str "cmd ") [pdA, pdB] 1 pdB (by decide)

/-! ## The FileList template helper (template.go)

`filepath.Base` and `filepath.Match` are abstract parameters; the Go
map iteration order over the covered-by-source set is modelled by the
order of the input list, and `sort.Strings` by an insertion sort under
byte-wise lexicographic comparison (for a total antisymmetric order
every sort produces the same list, so the algorithm is immaterial). -/

def strLe : Str → Str → Bool
  | [], _ => true
  | _ :: _, [] => false
  | c :: cs, d :: ds => if c < d then true else if d < c then false else strLe cs ds

theorem strLe_total : ∀ a b : Str, strLe a b = true ∨ strLe b a = true := by
  intro a
  induction a with
  | nil => intro b; left; rfl
  | cons c cs ih =>
    intro b
    cases b with
    | nil => right; rfl
    | cons d ds =>
      by_cases h1 : c < d
      · left
        unfold strLe
        rw [if_pos h1]
      · by_cases h2 : d < c
        · right
          unfold strLe
          rw [if_pos h2]
        · rcases ih ds with h | h
          · left
            unfold strLe
            rw [if_neg h1, if_neg h2]
            exact h
          · right
            unfold strLe
            rw [if_neg h2, if_neg h1]
            exact h

theorem strLe_antisymm : ∀ {a b : Str}, strLe a b = true → strLe b a = true → a = b := by
  intro a
  induction a with
  | nil =>
    intro b _ hba
    cases b with
    | nil => rfl
    | cons d ds => exact absurd hba (by rw [show strLe (d :: ds) [] = false from rfl]; simp)
  | cons c cs ih =>
    intro b hab hba
    cases b with
    | nil => exact absurd hab (by rw [show strLe (c :: cs) [] = false from rfl]; simp)
    | cons d ds =>
      unfold strLe at hab hba
      by_cases h1 : c < d
      · rw [if_neg (asymm h1)] at hba
        rw [if_pos h1] at hba
        exact absurd hba (by simp)
      · by_cases h2 : d < c
        · rw [if_pos h2] at hba
          rw [if_neg h1, if_pos h2] at hab
          exact absurd hab (by simp)
        · rw [if_neg h1, if_neg h2] at hab
          rw [if_neg h2, if_neg h1] at hba
          have hcd : c = d := le_antisymm (not_lt.mp h2) (not_lt.mp h1)
          rw [hcd, ih hab hba]

theorem strLe_trans : ∀ {a b c : Str}, strLe a b = true → strLe b c = true →
    strLe a c = true := by
  intro a
  induction a with
  | nil => intro b c _ _; rfl
  | cons x xs ih =>
    intro b c hab hbc
    cases b with
    | nil => exact absurd hab (by rw [show strLe (x :: xs) [] = false from rfl]; simp)
    | cons y ys =>
      cases c with
      | nil => exact absurd hbc (by rw [show strLe (y :: ys) [] = false from rfl]; simp)
      | cons z zs =>
        unfold strLe at hab hbc ⊢
        by_cases hxy : x < y
        · have hyz : y ≤ z := by
            by_contra hlt
            rw [if_neg (asymm (not_le.mp hlt)), if_pos (not_le.mp hlt)] at hbc
            exact absurd hbc (by simp)
          have hxz : x < z := lt_of_lt_of_le hxy hyz
          rw [if_pos hxz]
        · by_cases hyx : y < x
          · rw [if_neg hxy, if_pos hyx] at hab
            exact absurd hab (by simp)
          · have hxy' : x = y := le_antisymm (not_lt.mp hyx) (not_lt.mp hxy)
            subst hxy'
            rw [if_neg hxy, if_neg hyx] at hab
            by_cases hyz : x < z
            · rw [if_pos hyz]
            · by_cases hzy : z < x
              · rw [if_neg hyz, if_pos hzy] at hbc
                exact absurd hbc (by simp)
              · rw [if_neg hyz, if_neg hzy] at hbc ⊢
                exact ih hab hbc

def insertSorted (x : Str) : List Str → List Str
  | [] => [x]
  | y :: rest => if strLe x y then x :: y :: rest else y :: insertSorted x rest

/-- Model of `sort.Strings`. -/
def sortStrings (l : List Str) : List Str := l.foldr insertSorted []

theorem insertSorted_perm (x : Str) :
    ∀ l : List Str, (insertSorted x l).Perm (x :: l) := by
  intro l
  induction l with
  | nil => exact List.Perm.refl _
  | cons y rest ih =>
    unfold insertSorted
    by_cases h : strLe x y = true
    · rw [if_pos h]
    · rw [if_neg h]
      exact ((ih.cons y).trans (List.Perm.swap x y rest))

theorem insertSorted_sorted (x : Str) :
    ∀ l : List Str, List.Pairwise (fun a b => strLe a b = true) l →
      List.Pairwise (fun a b => strLe a b = true) (insertSorted x l) := by
  intro l
  induction l with
  | nil => intro _; exact List.pairwise_singleton _ _
  | cons y rest ih =>
    intro hp
    rw [List.pairwise_cons] at hp
    obtain ⟨hy, hrest⟩ := hp
    unfold insertSorted
    by_cases h : strLe x y = true
    · rw [if_pos h]
      rw [List.pairwise_cons]
      constructor
      · intro a ha
        rcases List.mem_cons.mp ha with rfl | ha'
        · exact h
        · exact strLe_trans h (hy a ha')
      · rw [List.pairwise_cons]
        exact ⟨hy, hrest⟩
    · rw [if_neg h]
      have hyx : strLe y x = true := by
        rcases strLe_total x y with h' | h'
        · exact absurd h' h
        · exact h'
      rw [List.pairwise_cons]
      constructor
      · intro a ha
        have := (insertSorted_perm x rest).mem_iff.mp ha
        rcases List.mem_cons.mp this with rfl | ha'
        · exact hyx
        · exact hy a ha'
      · exact ih hrest

theorem sortStrings_perm : ∀ l : List Str, (sortStrings l).Perm l := by
  intro l
  induction l with
  | nil => exact List.Perm.refl _
  | cons x rest ih =>
    show (insertSorted x (sortStrings rest)).Perm (x :: rest)
    exact (insertSorted_perm x (sortStrings rest)).trans (ih.cons x)

theorem sortStrings_sorted (l : List Str) :
    List.Pairwise (fun a b => strLe a b = true) (sortStrings l) := by
  induction l with
  | nil => exact List.Pairwise.nil
  | cons x rest ih => exact insertSorted_sorted x (sortStrings rest) ih

/-- The collection loop of `filterFileList` (template.go): keep the
files under `root'`, strip the prefix, and keep those whose base name
matches the pattern, in iteration order. -/
def filterFileListLoop (base : Str → Str) (fmatch : Str → Str → Bool)
    (rootSlash pattern : Str) : List Str → List Str
  | [] => []
  | sf :: rest =>
    if rootSlash.isPrefixOf sf then
      if fmatch pattern (base (sf.drop rootSlash.length)) then
        sf.drop rootSlash.length ::
          filterFileListLoop base fmatch rootSlash pattern rest
      else filterFileListLoop base fmatch rootSlash pattern rest
    else filterFileListLoop base fmatch rootSlash pattern rest

/-- `filterFileList` (template.go): append the path separator to the
root, collect the matching relative pathnames, and sort them. -/
def filterFileList (base : Str → Str) (fmatch : Str → Str → Bool)
    (files : List Str) (root pattern : Str) : List Str :=
  sortStrings (filterFileListLoop base fmatch (root ++ ['/']) pattern files)

theorem filterFileListLoop_eq (base : Str → Str) (fmatch : Str → Str → Bool)
    (rootSlash pattern : Str) :
    ∀ files : List Str,
      filterFileListLoop base fmatch rootSlash pattern files =
        ((files.filter (fun sf => rootSlash.isPrefixOf sf)).map
            (fun sf => sf.drop rootSlash.length)).filter
          (fun rel => fmatch pattern (base rel)) := by
  intro files
  induction files with
  | nil => rfl
  | cons sf rest ih =>
    unfold filterFileListLoop
    by_cases hp : rootSlash.isPrefixOf sf
    · by_cases hm : fmatch pattern (base (sf.drop rootSlash.length)) = true
      · simp [hp, hm, ih, List.filter_cons, List.map_cons]
      · simp [hp, hm, ih, List.filter_cons, List.map_cons]
    · simp [hp, ih, List.filter_cons]

theorem filterFileListLoop_mem (base : Str → Str) (fmatch : Str → Str → Bool)
    (rootSlash pattern : Str) (files : List Str) (x : Str) :
    x ∈ filterFileListLoop base fmatch rootSlash pattern files ↔
      (rootSlash ++ x) ∈ files ∧ fmatch pattern (base x) = true := by
  rw [filterFileListLoop_eq]
  rw [List.mem_filter, List.mem_map]
  constructor
  · rintro ⟨⟨sf, hsf, rfl⟩, hm⟩
    rw [List.mem_filter] at hsf
    refine ⟨?_, hm⟩
    rw [← isPrefixOf_decomp hsf.2]
    exact hsf.1
  · rintro ⟨hmem, hm⟩
    refine ⟨⟨rootSlash ++ x, ?_, List.drop_left _ _⟩, ?_⟩
    · rw [List.mem_filter]
      exact ⟨hmem, isPrefixOf_self_append _ _⟩
    · exact hm

/-- C10: the FileList helper is deterministic: its output does not
depend on the iteration order of the covered-by-source set (any
permutation of the input yields the identical list), it is sorted
ascending in byte-wise lexicographic order, and it holds exactly the
relative pathnames x such that root/x is a covered file and the
(abstract) matcher accepts the (abstract) base name of x. -/
theorem C10_filterFileList_deterministic
    (base : Str → Str) (fmatch : Str → Str → Bool)
    (files files' : List Str) (root pattern : Str)
    (hperm : files.Perm files') :
    (filterFileList base fmatch files root pattern =
      filterFileList base fmatch files' root pattern) ∧
    List.Pairwise (fun a b => strLe a b = true)
      (filterFileList base fmatch files root pattern) ∧
    ∀ x, x ∈ filterFileList base fmatch files root pattern ↔
      ((root ++ ['/']) ++ x) ∈ files ∧ fmatch pattern (base x) = true := by
  have hmemkey : ∀ (x : Str) (fls : List Str),
      x ∈ filterFileList base fmatch fls root pattern ↔
        ((root ++ ['/']) ++ x) ∈ fls ∧ fmatch pattern (base x) = true := by
    intro x fls
    unfold filterFileList
    rw [(sortStrings_perm _).mem_iff]
    exact filterFileListLoop_mem base fmatch (root ++ ['/']) pattern fls x
  refine ⟨?_, sortStrings_sorted _, fun x => hmemkey x files⟩
  have hp1 : (filterFileList base fmatch files root pattern).Perm
      (filterFileList base fmatch files' root pattern) := by
    unfold filterFileList
    refine ((sortStrings_perm _).trans ?_).trans (sortStrings_perm _).symm
    rw [filterFileListLoop_eq, filterFileListLoop_eq]
    exact List.Perm.filter _ (List.Perm.map _ (List.Perm.filter _ hperm))
  haveI : IsAntisymm Str (fun a b => strLe a b = true) :=
    ⟨fun a b hab hba => strLe_antisymm hab hba⟩
  exact List.eq_of_perm_of_sorted hp1 (sortStrings_sorted _) (sortStrings_sorted _)

theorem C10_witness :
    (filterFileList (fun s => s) (fun _ _ => true)
        [str "src/b.c", str "src/a.c", str "doc/x"] (str "src") (str "*.c") =
      filterFileList (fun s => s) (fun _ _ => true)
        [str "doc/x", str "src/b.c", str "src/a.c"] (str "src") (str "*.c")) ∧
    List.Pairwise (fun a b => strLe a b = true)
      (filterFileList (fun s => s) (fun _ _ => true)
        [str "src/b.c", str "src/a.c", str "doc/x"] (str "src") (str "*.c")) ∧
    ∀ x, x ∈ filterFileList (fun s => s) (fun _ _ => true)
        [str "src/b.c", str "src/a.c", str "doc/x"] (str "src") (str "*.c") ↔
      ((str "src" ++ ['/']) ++ x) ∈
          [str "src/b.c", str "src/a.c", str "doc/x"] ∧
        (fun (_ _ : Str) => true) (str "*.c") ((fun (s : Str) => s) x) = true :=
  C10_filterFileList_deterministic (fun s => s) (fun _ _ => true)
    [str "src/b.c", str "src/a.c", str "doc/x"]
    [str "doc/x", str "src/b.c", str "src/a.c"] (str "src") (str "*.c")
    (by decide)
